import Mathlib

/-!
Verification of the CNCS-rs SM2 kit (crate cncs-sm2-kit).

The crate under `src/cncs-sm2-kit` is a thin layer over two SM2 backends
(libsm and gmsm): it owns the key/signature data model, the hex and byte
serialization, and the glue functions `sign`, `verify`, `encrypt`,
`decrypt`.  The data model and serialization are embedded here directly
from the Rust source.  The SM2 protocol arithmetic itself (curve points,
digest paths, signing equations, the KDF-based encryption) lives in the
backend crates whose sources are not part of the repository; those parts
are modelled from the specification, each such definition carrying a
doc comment starting with `Modelled from the spec:`.

Rust `BigUint` values are embedded as `Nat`; Rust byte slices / `Vec<u8>`
as `List Nat` (each element < 256); Rust strings as their UTF-8 byte
lists.  Fallible Rust functions returning `Result` are embedded as
`Except`; Rust panics of the modelled backend code are made explicit via
a dedicated error type.
-/

set_option maxRecDepth 8000

/-- Order `n` of the base point of the SM2 recommended curve. -/
def sm2n : Nat :=
  0xFFFFFFFEFFFFFFFFFFFFFFFFFFFFFFFF7203DF6B21C6052B53BBF40939D54123

/-- Prime `p` of the base field of the SM2 recommended curve. -/
def sm2p : Nat :=
  0xFFFFFFFEFFFFFFFFFFFFFFFFFFFFFFFFFFFFFFFF00000000FFFFFFFFFFFFFFFF

/-- Coefficient `a` of the SM2 curve equation `y^2 = x^3 + a x + b`. -/
def sm2a : Nat :=
  0xFFFFFFFEFFFFFFFFFFFFFFFFFFFFFFFFFFFFFFFF00000000FFFFFFFFFFFFFFFC

/-- Coefficient `b` of the SM2 curve equation. -/
def sm2b : Nat :=
  0x28E9FA9E9D9F5E344D5A9E4BCF6509A7F39789F515AB8F92DDBCBD414D940E93

/-- `x`-coordinate of the SM2 base point `G`. -/
def sm2gx : Nat :=
  0x32C4AE2C1F1981195F9904466A39C9948FE30BBFF2660BE1715A4589334C74C7

/-- `y`-coordinate of the SM2 base point `G`. -/
def sm2gy : Nat :=
  0xBC3736A2F4F6779C59BDCEE36B692153D0A9877CC62A474002DF32E52139F0A0

instance : NeZero sm2n := ⟨by decide⟩

/-- Big-endian value of a byte list (embeds `BigUint::from_bytes_be`). -/
def beVal (l : List Nat) : Nat :=
  l.foldl (fun a b => a * 256 + b) 0

/-- Little-endian base-256 digits, written with structural recursion on
a fuel bound so that it evaluates inside the kernel (any `fuel ≥ v`
gives the base-256 digits of `v`). -/
def bytesLEAux : Nat → Nat → List Nat
  | 0, _ => []
  | fuel + 1, v => if v = 0 then [] else v % 256 :: bytesLEAux fuel (v / 256)

theorem bytesLEAux_eq_digits : ∀ fuel v : Nat, v ≤ fuel →
    bytesLEAux fuel v = Nat.digits 256 v := by
  intro fuel
  induction fuel with
  | zero =>
    intro v hv
    interval_cases v
    simp [bytesLEAux]
  | succ fuel ih =>
    intro v hv
    by_cases h0 : v = 0
    · subst h0; simp [bytesLEAux]
    · have hlt : v / 256 < v := Nat.div_lt_self (Nat.pos_of_ne_zero h0) (by norm_num)
      rw [bytesLEAux, if_neg h0, ih (v / 256) (by omega),
        Nat.digits_def' (by norm_num : 1 < 256) (Nat.pos_of_ne_zero h0)]

/-- Minimal big-endian byte representation, embedding
`BigUint::to_bytes_be` (which yields `[0]` for zero). -/
def rustToBytesBE (v : Nat) : List Nat :=
  if v = 0 then [0] else (bytesLEAux v v).reverse

theorem rustToBytesBE_eq_digits (v : Nat) :
    rustToBytesBE v = if v = 0 then [0] else (Nat.digits 256 v).reverse := by
  by_cases h0 : v = 0
  · subst h0; rfl
  · simp only [rustToBytesBE, if_neg h0, bytesLEAux_eq_digits v v le_rfl]

/-- Embeds `to_bytes::<LEN>` from `src/cncs-sm2-kit/src/types/mod.rs`:
left-pad the minimal big-endian bytes with zeros to a fixed width `len`.
When the minimal representation is longer than `len`, the Rust index
computation `LEN - data.len()` is outside its domain and the function
panics; that case is `none`. -/
def toBytesFixed (len : Nat) (v : Nat) : Option (List Nat) :=
  let data := rustToBytesBE v
  if data.length ≤ len then some (List.replicate (len - data.length) 0 ++ data)
  else none

/-- ASCII code of the uppercase hex digit of a nibble (`hex_simd`,
uppercase alphabet). -/
def hexUpperDigit (v : Nat) : Nat :=
  if v < 10 then 48 + v else 55 + v

/-- Embeds `to_hex_str` from `types/mod.rs`: uppercase hex encoding of a
byte list, two ASCII characters per byte. -/
def toHexStr (data : List Nat) : List Nat :=
  data.flatMap (fun b => [hexUpperDigit (b / 16), hexUpperDigit (b % 16)])

/-- Value of an ASCII hex digit (`0-9`, `a-f`, `A-F`), as accepted by
`BigUint::from_str_radix(_, 16)`. -/
def hexDigitVal (c : Nat) : Option Nat :=
  if 48 ≤ c ∧ c ≤ 57 then some (c - 48)
  else if 65 ≤ c ∧ c ≤ 70 then some (c - 55)
  else if 97 ≤ c ∧ c ≤ 102 then some (c - 87)
  else none

/-- Radix-16 accumulating parser over ASCII bytes, mirroring the digit
loop of `num_bigint`'s `from_str_radix`: an underscore byte (`95`) is
skipped as a digit separator, any other non-hex-digit byte fails. -/
def parseHexAux (acc : Nat) : List Nat → Option Nat
  | [] => some acc
  | c :: cs =>
    if c = 95 then parseHexAux acc cs
    else (hexDigitVal c).bind fun d => parseHexAux (acc * 16 + d) cs

/-- The sign handling of `num_bigint`'s `from_str_radix`: one leading
`'+'` (byte `43`) is stripped, unless it is followed by another `'+'`
(then the string is left alone and the first `'+'` fails as a digit). -/
def stripPlus (s : List Nat) : List Nat :=
  match s with
  | [] => []
  | c :: tail =>
    if c = 43 then (if tail.head? = some 43 then c :: tail else tail)
    else c :: tail

instance {ε α : Type} [DecidableEq ε] [DecidableEq α] : DecidableEq (Except ε α) := fun a b =>
  match a, b with
  | .ok v, .ok w =>
    if h : v = w then .isTrue (by rw [h]) else .isFalse (by intro hh; cases hh; exact h rfl)
  | .error e, .error f =>
    if h : e = f then .isTrue (by rw [h]) else .isFalse (by intro hh; cases hh; exact h rfl)
  | .ok _, .error _ => .isFalse (by intro hh; cases hh)
  | .error _, .ok _ => .isFalse (by intro hh; cases hh)

/-- The two failure kinds of `num_bigint::ParseBigIntError` reachable
from radix-16 parsing of an unsigned value. -/
inductive ParseBigIntError where
  | empty
  | invalidDigit
deriving DecidableEq

/-- Embeds `BigUint::from_str_radix(s, 16)` (`num_bigint`): strip one
leading `'+'` (unless doubled), reject the empty remainder with the
`Empty` kind and a leading `'_'` with the `InvalidDigit` kind, then run
the digit loop, which skips `'_'` separators and fails on any byte that
is not a hex digit.  The loop reads raw bytes, so it never panics. -/
def fromStrRadix16 (s : List Nat) : Except ParseBigIntError Nat :=
  let s2 := stripPlus s
  if s2 = [] then .error .empty
  else if s2.head? = some 95 then .error .invalidDigit
  else match parseHexAux 0 s2 with
    | some v => .ok v
    | none => .error .invalidDigit

/-- Uppercase radix-16 rendering, embedding
`BigUint::to_str_radix(16).to_uppercase()` (minimal digits, `"0"` for
zero). -/
def toStrRadix16Upper (v : Nat) : List Nat :=
  if v = 0 then [48] else ((Nat.digits 16 v).reverse).map hexUpperDigit

/-- Embeds `struct PrivateKey` (`types/private_key.rs`): a bare scalar. -/
structure PrivateKey where
  d : Nat
deriving DecidableEq

/-- Embeds `PrivateKey::new`. -/
def PrivateKey.new (d : Nat) : PrivateKey := ⟨d⟩

/-- Embeds `PrivateKey::from_bytes`. -/
def PrivateKey.from_bytes (bytes : List Nat) : PrivateKey := ⟨beVal bytes⟩

/-- Embeds `PrivateKey::from_hex_str`. -/
def PrivateKey.from_hex_str (s : List Nat) : Except ParseBigIntError PrivateKey :=
  (fromStrRadix16 s).map fun d => ⟨d⟩

/-- Embeds `struct PublicKey` (`types/public_key.rs`): two coordinates. -/
structure PublicKey where
  x : Nat
  y : Nat
deriving DecidableEq

/-- Embeds `PublicKey::new`. -/
def PublicKey.new (x y : Nat) : PublicKey := ⟨x, y⟩

/-- Embeds `PublicKey::from_bytes`. -/
def PublicKey.from_bytes (xb yb : List Nat) : PublicKey := ⟨beVal xb, beVal yb⟩

/-- Embeds `PublicKey::from_hex_str`. -/
def PublicKey.from_hex_str (xs ys : List Nat) : Except ParseBigIntError PublicKey := do
  let x ← fromStrRadix16 xs
  let y ← fromStrRadix16 ys
  pure ⟨x, y⟩

/-- A Rust panic: a control path with no value and no `Result` error
channel (out-of-domain slicing of the modelled backend code, and the
`&str` char-boundary check of the parsers). -/
inductive RustPanic where
  | panic
deriving DecidableEq

/-- Embeds Rust's `str::is_char_boundary`: true at the start, at the end
of the string, and at any byte that is not a UTF-8 continuation byte
(`(b as i8) >= -0x40`, i.e. `b < 0x80 ∨ 0xC0 ≤ b`). -/
def isCharBoundary (s : List Nat) (i : Nat) : Bool :=
  if i = 0 then true
  else match s.get? i with
    | none => decide (i = s.length)
    | some b => decide (b < 128 ∨ 192 ≤ b)

/-- Embeds `&s[i..j]` on a Rust `&str`: the byte range, panicking unless
the range is within bounds and both ends are char boundaries. -/
def strSlice (s : List Nat) (i j : Nat) : Except RustPanic (List Nat) :=
  if i ≤ j ∧ j ≤ s.length ∧ isCharBoundary s i ∧ isCharBoundary s j then
    .ok ((s.take j).drop i)
  else .error .panic

/-- Embeds `enum PublicKeyFromConcatedHexStrError`. -/
inductive PublicKeyFromConcatedHexStrError where
  | invalid
  | parseBigIntError (e : ParseBigIntError)
deriving DecidableEq

/-- Embeds `PublicKey::from_concated_hex_str`: match on the byte length;
a 130-byte string must start with `"04"` (ASCII `48, 52`) and is sliced
at bytes 2 and 66, a 128-byte string at byte 64, anything else is the
`Invalid` error.  The `&str` slicing panics when a slice end falls
inside a multibyte character, so the result carries the panic
explicitly, outside the function's own `Result`. -/
def PublicKey.from_concated_hex_str (s : List Nat) :
    Except RustPanic (Except PublicKeyFromConcatedHexStrError PublicKey) :=
  if s.length = 130 then
    if s.take 2 ≠ [48, 52] then .ok (.error .invalid)
    else do
      let xs ← strSlice s 2 66
      let ys ← strSlice s 66 s.length
      pure ((PublicKey.from_hex_str xs ys).mapError
        PublicKeyFromConcatedHexStrError.parseBigIntError)
  else if s.length = 128 then do
    let xs ← strSlice s 0 64
    let ys ← strSlice s 64 s.length
    pure ((PublicKey.from_hex_str xs ys).mapError
      PublicKeyFromConcatedHexStrError.parseBigIntError)
  else .ok (.error .invalid)

/-- Embeds `PublicKey::to_concated_bytes`: each coordinate serialized to
32 fixed-width big-endian bytes; `none` models the panic of
`to_bytes::<32>` on an oversized coordinate. -/
def PublicKey.to_concated_bytes (k : PublicKey) : Option (List Nat) := do
  let xb ← toBytesFixed 32 k.x
  let yb ← toBytesFixed 32 k.y
  pure (xb ++ yb)

/-- Embeds `PublicKey::to_concated_hex_str`. -/
def PublicKey.to_concated_hex_str (k : PublicKey) : Option (List Nat) :=
  k.to_concated_bytes.map toHexStr

/-- Embeds `struct Signature` (`types/signature.rs`). -/
structure Signature where
  r : Nat
  s : Nat
deriving DecidableEq

/-- Embeds `Signature::new`. -/
def Signature.new (r s : Nat) : Signature := ⟨r, s⟩

/-- Embeds `Signature::from_bytes`. -/
def Signature.from_bytes (rb sb : List Nat) : Signature := ⟨beVal rb, beVal sb⟩

/-- Embeds `Signature::from_hex_str`. -/
def Signature.from_hex_str (rs ss : List Nat) : Except ParseBigIntError Signature := do
  let r ← fromStrRadix16 rs
  let s ← fromStrRadix16 ss
  pure ⟨r, s⟩

/-- Embeds `enum SignatureFromConcatedHexStrError`. -/
inductive SignatureFromConcatedHexStrError where
  | invalid
  | parseBigIntError (e : ParseBigIntError)
deriving DecidableEq

/-- Embeds `Signature::from_concated_hex_str`: only 128-byte inputs,
sliced at byte 64 with the same char-boundary panic as the `PublicKey`
parser. -/
def Signature.from_concated_hex_str (s : List Nat) :
    Except RustPanic (Except SignatureFromConcatedHexStrError Signature) :=
  if s.length = 128 then do
    let rs ← strSlice s 0 64
    let ss ← strSlice s 64 s.length
    pure ((Signature.from_hex_str rs ss).mapError
      SignatureFromConcatedHexStrError.parseBigIntError)
  else .ok (.error .invalid)

/-- Embeds `Signature::to_concated_bytes`. -/
def Signature.to_concated_bytes (sg : Signature) : Option (List Nat) := do
  let rb ← toBytesFixed 32 sg.r
  let sb ← toBytesFixed 32 sg.s
  pure (rb ++ sb)

/-- Embeds `Signature::to_concated_hex_str`. -/
def Signature.to_concated_hex_str (sg : Signature) : Option (List Nat) :=
  sg.to_concated_bytes.map toHexStr

/-- Embeds `enum EncryptMode` (`types/encrypt_mode.rs`). -/
inductive EncryptMode where
  | c1c2c3
  | c1c3c2
deriving DecidableEq

/-- Modelled from the spec: the numeric value of `gmsm::g2::consts::C1C2C3`
(the gmsm crate source is not in the repository; only injectivity of the
two constants is observable). -/
def gmsmC1C2C3 : Nat := 0

/-- Modelled from the spec: the numeric value of `gmsm::g2::consts::C1C3C2`. -/
def gmsmC1C3C2 : Nat := 1

/-- Embeds `impl Default for EncryptMode`: the default is `C1C3C2`. -/
def EncryptMode.defaultMode : EncryptMode := .c1c3c2

/-- Embeds `EncryptMode::to_gmsm_mode`. -/
def EncryptMode.to_gmsm_mode : EncryptMode → Nat
  | .c1c2c3 => gmsmC1C2C3
  | .c1c3c2 => gmsmC1C3C2

example : PublicKey.from_concated_hex_str (toHexStr (List.replicate 64 7)) =
    .ok (.ok ⟨beVal (List.replicate 32 7), beVal (List.replicate 32 7)⟩) := by decide

example : fromStrRadix16 [70, 70] = .ok 255 := by decide

/-- Fuel-driven extended Euclid: `egcd fuel a b = (g, x, y)` with
`x*a + y*b = g = gcd a b` whenever `a ≤ fuel` (the backends' big-integer
modular inverse, written with structural recursion so that it evaluates
inside the kernel). -/
def egcd : Nat → Nat → Nat → Nat × Int × Int
  | 0, _, b => (b, 0, 1)
  | fuel + 1, a, b =>
    if a = 0 then (b, 0, 1)
    else
      let r := egcd fuel (b % a) a
      (r.1, r.2.2 - ((b / a : Nat) : Int) * r.2.1, r.2.1)

theorem egcd_spec : ∀ fuel a b : Nat, a ≤ fuel →
    (egcd fuel a b).1 = Nat.gcd a b ∧
    (egcd fuel a b).2.1 * a + (egcd fuel a b).2.2 * b = Nat.gcd a b := by
  intro fuel
  induction fuel with
  | zero =>
    intro a b ha
    interval_cases a
    simp [egcd]
  | succ fuel ih =>
    intro a b ha
    by_cases h0 : a = 0
    · subst h0; simp [egcd]
    · have hlt : b % a < a := Nat.mod_lt _ (Nat.pos_of_ne_zero h0)
      have hfuel : b % a ≤ fuel := by omega
      obtain ⟨hg, hbez⟩ := ih (b % a) a hfuel
      have hrec : Nat.gcd (b % a) a = Nat.gcd a b := (Nat.gcd_rec a b).symm
      constructor
      · simp only [egcd, if_neg h0]
        rw [hg, hrec]
      · simp only [egcd, if_neg h0]
        have hdm : (b : Int) = (a : Int) * ((b / a : Nat) : Int) + ((b % a : Nat) : Int) := by
          exact_mod_cast (Nat.div_add_mod b a).symm
        rw [hrec] at hbez
        rw [hdm]
        linear_combination hbez

/-- The backends' modular inverse in `ZMod n`, computed by extended
Euclid on the canonical representative (kernel-evaluable, unlike
`ZMod.inv`). -/
def zinv (a : ZMod sm2n) : ZMod sm2n :=
  (((egcd (a.val + 1) a.val sm2n).2.1 : Int) : ZMod sm2n)

theorem zinv_mul_self (a : ZMod sm2n) (h : IsUnit a) : zinv a * a = 1 := by
  have hval : ((a.val : Nat) : ZMod sm2n) = a := ZMod.natCast_rightInverse a
  have hcop : Nat.Coprime a.val sm2n := by
    rw [← ZMod.isUnit_iff_coprime]
    rwa [hval]
  obtain ⟨hg, hbez⟩ := egcd_spec (a.val + 1) a.val sm2n (Nat.le_succ _)
  have hone : Nat.gcd a.val sm2n = 1 := hcop
  rw [hone] at hbez
  have hz : ((egcd (a.val + 1) a.val sm2n).2.1 : ZMod sm2n) * a = 1 := by
    have h2 := congrArg (fun z : Int => ((z : ZMod sm2n))) hbez
    push_cast at h2
    rwa [ZMod.natCast_self, mul_zero, add_zero, hval] at h2
  simpa [zinv] using hz

theorem foldl_mulAdd_eq (B : Nat) (l : List Nat) : ∀ acc : Nat,
    List.foldl (fun a b => a * B + b) acc l =
      acc * B ^ l.length + Nat.ofDigits B l.reverse := by
  induction l with
  | nil => intro acc; simp
  | cons c cs ih =>
    intro acc
    simp only [List.foldl_cons, List.length_cons, List.reverse_cons]
    rw [ih (acc * B + c), Nat.ofDigits_append]
    simp [Nat.ofDigits_singleton]
    ring

theorem beVal_foldl (l : List Nat) : ∀ acc : Nat,
    List.foldl (fun a b => a * 256 + b) acc l =
      acc * 256 ^ l.length + Nat.ofDigits 256 l.reverse :=
  foldl_mulAdd_eq 256 l

/-- `BigUint` byte round trip: the value of the minimal big-endian bytes
is the original number. -/
theorem beVal_rustToBytesBE (v : Nat) : beVal (rustToBytesBE v) = v := by
  rw [rustToBytesBE_eq_digits]
  by_cases h : v = 0
  · subst h; rfl
  · simp only [beVal, if_neg h]
    rw [beVal_foldl]
    simp [Nat.ofDigits_digits]

/-- The spec's Curve Arithmetic Engine (§4.1): an assumed-correct
elliptic-curve capability.  `gMul k` is `k·G`, `mulP` scalar
multiplication of a point, `addP` point addition, `newPoint` the
validated construction from affine coordinates (rejecting off-curve
input), `smulCoords x y k` the gmsm scalar multiplication on raw
coordinates, and `pointToBytes`/`bytesToPoint` the gmsm serialization of
an ephemeral point into the ciphertext.  The protocol theorems take the
engine as a parameter together with the algebraic laws of §4.1 they
need, stated as explicit hypotheses. -/
structure CurveEngine where
  P : Type
  gMul : ZMod sm2n → P
  mulP : ZMod sm2n → P → P
  addP : P → P → P
  xCoord : P → Nat
  affine : P → Nat × Nat
  newPoint : Nat → Nat → Except String P
  smulCoords : Nat → Nat → ZMod sm2n → P
  pointToBytes : P → List Nat
  bytesToPoint : List Nat → P

/-- 32-byte big-endian of a field element.  Inside the SM2 digest and
tag computations every serialized value is a coordinate `< p < 2^256`,
so the fixed-width serialization never overflows; the fallback keeps the
function total. -/
def pad32 (v : Nat) : List Nat :=
  (toBytesFixed 32 v).getD (rustToBytesBE v)

/-- Modelled from the spec: the `Z_A` identity hash of §4.3 step 1 —
`Hash(ENTL ‖ user_id ‖ a ‖ b ‖ Gx ‖ Gy ‖ Px ‖ Py)` with `ENTL` the
two-byte big-endian bit length of the user id (libsm `SigCtx::hash`
internals are not in the repository). -/
def libsmZA (hashFn : List Nat → List Nat) (uid : List Nat) (aff : Nat × Nat) : List Nat :=
  hashFn ([uid.length * 8 / 256 % 256, uid.length * 8 % 256] ++ uid ++
    pad32 sm2a ++ pad32 sm2b ++ pad32 sm2gx ++ pad32 sm2gy ++
    pad32 aff.1 ++ pad32 aff.2)

/-- Modelled from the spec: libsm `SigCtx::hash` — the `Z`-prefixed
digest `e = Hash(Z ‖ msg)` of §4.3 step 1. -/
def libsmSigHash (hashFn : List Nat → List Nat) (uid : List Nat) (aff : Nat × Nat)
    (msg : List Nat) : List Nat :=
  hashFn (libsmZA hashFn uid aff ++ msg)

/-- The digest actually fed to the sign/verify arithmetic, as a function
of the optional user id: the `Z`-prefixed path when a user id is
present, the raw-message digest when it is absent (§4.3 steps 1–2). -/
def digestBytes (hashFn : List Nat → List Nat) (uid : Option (List Nat))
    (aff : Nat × Nat) (msg : List Nat) : List Nat :=
  match uid with
  | some u => libsmSigHash hashFn u aff msg
  | none => hashFn msg

/-- Embeds `libsm::sm2::signature::Signature`: the pair of big unsigned
integers held by the backend signature. -/
structure LibsmSignature where
  r : Nat
  s : Nat
deriving DecidableEq

/-- Embeds `From<&Signature> for libsm Signature`: each component goes
through `to_bytes_be` and is re-parsed by the backend. -/
def libsmSignatureOf (sg : Signature) : LibsmSignature :=
  ⟨beVal (rustToBytesBE sg.r), beVal (rustToBytesBE sg.s)⟩

/-- Embeds `From<&libsm Signature> for Signature`. -/
def signatureOfLibsm (l : LibsmSignature) : Signature := ⟨l.r, l.s⟩

/-- Modelled from the spec: one attempt of libsm `sign_raw` (§4.3
step 3) with the fresh nonce `k` made an explicit argument:
`x1 = x(k·G)`, `r = e + x1 mod n`, retry (`none`) when `r = 0` or
`r + k ≡ 0`, `s = (1+d)⁻¹ (k − r·d) mod n`, retry when `s = 0`. -/
def libsmSignRawAttempt (E : CurveEngine) (eBytes : List Nat) (dNat kNat : Nat) :
    Option LibsmSignature :=
  let e : ZMod sm2n := (beVal eBytes : Nat)
  let d : ZMod sm2n := (dNat : Nat)
  let k : ZMod sm2n := (kNat : Nat)
  let x1 := E.xCoord (E.gMul k)
  let r := e + (x1 : ZMod sm2n)
  if r = 0 ∨ r + k = 0 then none
  else
    let s := zinv (1 + d) * (k - r * d)
    if s = 0 then none else some ⟨r.val, s.val⟩

/-- Modelled from the spec: libsm `SigCtx::sign` for the absent-user-id
glue branch — §4.3 step 2, the raw-message digest path (`e = Hash(msg)`,
no `Z` prefixing), then `sign_raw`.  The public-key argument is carried
to mirror the backend signature but does not enter the digest. -/
def libsmSign (E : CurveEngine) (hashFn : List Nat → List Nat) (msg : List Nat)
    (dNat : Nat) (_pk : E.P) (kNat : Nat) : Option LibsmSignature :=
  libsmSignRawAttempt E (hashFn msg) dNat kNat

/-- Modelled from the spec: libsm `verify_raw` (§4.3 verification) —
reject `r` or `s` outside `[1, n−1]` and `t = r + s ≡ 0` with a `false`
result, otherwise accept iff `e + x(s·G + t·P) ≡ r (mod n)`. -/
def libsmVerifyRaw (E : CurveEngine) (eBytes : List Nat) (p : E.P)
    (sig : LibsmSignature) : Bool :=
  if sig.r = 0 ∨ sm2n ≤ sig.r ∨ sig.s = 0 ∨ sm2n ≤ sig.s then false
  else
    let e : ZMod sm2n := (beVal eBytes : Nat)
    let r : ZMod sm2n := (sig.r : Nat)
    let s : ZMod sm2n := (sig.s : Nat)
    let t := r + s
    if t = 0 then false
    else
      let pt := E.addP (E.gMul s) (E.mulP t p)
      decide (e + (E.xCoord pt : ZMod sm2n) = r)

/-- Modelled from the spec: libsm `SigCtx::verify` for the
absent-user-id branch — raw-message digest, then `verify_raw`. -/
def libsmVerify (E : CurveEngine) (hashFn : List Nat → List Nat) (msg : List Nat)
    (p : E.P) (sig : LibsmSignature) : Bool :=
  libsmVerifyRaw E (hashFn msg) p sig

/-- Pointwise XOR of two byte lists (truncating to the shorter). -/
def xorBytes (a b : List Nat) : List Nat :=
  List.zipWith (fun x y => x ^^^ y) a b

theorem xorBytes_length (a b : List Nat) :
    (xorBytes a b).length = min a.length b.length := by
  simp [xorBytes]

theorem xorBytes_cancel : ∀ (m s : List Nat), m.length = s.length →
    xorBytes (xorBytes m s) s = m := by
  intro m
  induction m with
  | nil => intro s _; simp [xorBytes]
  | cons x xs ih =>
    intro s hlen
    cases s with
    | nil => simp at hlen
    | cons y ys =>
      simp only [xorBytes, List.zipWith_cons_cons] at *
      rw [Nat.xor_cancel_right]
      exact congrArg (x :: ·) (ih ys (by simpa using hlen))

/-- Modelled from the spec: gmsm g2 `encrypt` (§4.4) with the ephemeral
scalar `k` explicit: `C1 = k·G` (serialized point), shared point
`k·Q` with affine coordinates `(x2, y2)`, `C2 = msg XOR KDF(x2‖y2, |msg|)`
(`none` models the mandated redraw when the KDF stream is all-zero),
`C3 = Hash(x2 ‖ msg ‖ y2)`, components concatenated in the order given
by the gmsm mode constant. -/
def gmsmEncrypt (E : CurveEngine) (kdf : Nat × Nat → Nat → List Nat)
    (hashFn : List Nat → List Nat) (pub : Nat × Nat) (msg : List Nat)
    (mode : Nat) (kNonce : ZMod sm2n) : Option (List Nat) :=
  let c1 := E.gMul kNonce
  let shared := E.smulCoords pub.1 pub.2 kNonce
  let xy := E.affine shared
  let stream := kdf xy msg.length
  if stream.all (fun b => b == 0) then none
  else
    let c2 := xorBytes msg stream
    let c3 := hashFn (pad32 xy.1 ++ msg ++ pad32 xy.2)
    if mode = gmsmC1C2C3 then some (E.pointToBytes c1 ++ c2 ++ c3)
    else some (E.pointToBytes c1 ++ c3 ++ c2)

/-- Modelled from the spec: gmsm g2 `decrypt` (§4.4) — split the
ciphertext by the mode's layout (`C1` is the fixed 64-byte point, `C3`
the fixed 32-byte tag, `C2` the remainder), recompute the shared point
`d·C1`, regenerate the KDF stream and XOR-recover the message.  The
minimal contract returns the recovered bytes without enforcing the `C3`
integrity comparison (§4.4).  An input shorter than the fixed components
cannot be split: with no `Result` in the return type this is a panic. -/
def gmsmDecrypt (E : CurveEngine) (kdf : Nat × Nat → Nat → List Nat)
    (dNat : Nat) (data : List Nat) (mode : Nat) : Except RustPanic (List Nat) :=
  if data.length < 96 then .error .panic
  else
    let c1b := data.take 64
    let rest := data.drop 64
    let c2 := if mode = gmsmC1C2C3 then rest.take (rest.length - 32) else rest.drop 32
    let shared := E.mulP ((dNat : Nat) : ZMod sm2n) (E.bytesToPoint c1b)
    let xy := E.affine shared
    let stream := kdf xy c2.length
    .ok (xorBytes c2 stream)

/-- Embeds `encrypt` from `src/cncs-sm2-kit/src/lib.rs`: resolve the
optional mode with `unwrap_or_default`, convert it with `to_gmsm_mode`,
and call the backend (ephemeral scalar explicit). -/
def cncsEncrypt (E : CurveEngine) (kdf : Nat × Nat → Nat → List Nat)
    (hashFn : List Nat → List Nat) (public_key : PublicKey) (msg : List Nat)
    (mode : Option EncryptMode) (kNonce : ZMod sm2n) : Option (List Nat) :=
  gmsmEncrypt E kdf hashFn (public_key.x, public_key.y) msg
    (mode.getD EncryptMode.defaultMode).to_gmsm_mode kNonce

/-- Embeds `decrypt` from `src/cncs-sm2-kit/src/lib.rs`. -/
def cncsDecrypt (E : CurveEngine) (kdf : Nat × Nat → Nat → List Nat)
    (private_key : PrivateKey) (msg : List Nat) (mode : Option EncryptMode) :
    Except RustPanic (List Nat) :=
  gmsmDecrypt E kdf private_key.d msg (mode.getD EncryptMode.defaultMode).to_gmsm_mode

theorem xorBytes_inj (a b s : List Nat) (ha : a.length = s.length)
    (hb : b.length = s.length) (h : xorBytes a s = xorBytes b s) : a = b := by
  have h2 := congrArg (fun l => xorBytes l s) h
  simpa [xorBytes_cancel a s ha, xorBytes_cancel b s hb] using h2

/-- Evaluation of the modelled gmsm decrypt on a well-formed split
`C1 ‖ rest`: the mode chooses which slice of `rest` is `C2`. -/
theorem gmsmDecrypt_eval (E : CurveEngine) (kdf : Nat × Nat → Nat → List Nat)
    (dNat : Nat) (p1 rest : List Nat) (hp1 : p1.length = 64)
    (hrest : 32 ≤ rest.length) (modeN : Nat) :
    gmsmDecrypt E kdf dNat (p1 ++ rest) modeN =
      .ok (xorBytes (if modeN = gmsmC1C2C3 then rest.take (rest.length - 32) else rest.drop 32)
        (kdf (E.affine (E.mulP ((dNat : Nat) : ZMod sm2n) (E.bytesToPoint p1)))
          (if modeN = gmsmC1C2C3 then rest.take (rest.length - 32) else rest.drop 32).length)) := by
  have hnot : ¬ (p1 ++ rest).length < 96 := by
    simp only [List.length_append, hp1]
    omega
  simp only [gmsmDecrypt, if_neg hnot, List.take_left' hp1, List.drop_left' hp1]

/-- C2: for every message, key pair `(d, Q = d·G)` and mode, decrypting
an encryption with the same mode recovers the message exactly; and
decrypting with the other mode does not silently yield the message: it
returns the XOR-unmasking of a displaced slice, which can only equal the
message if the integrity-tag bytes coincide with the masked-message
bytes at the displaced positions (the explicit non-coincidence
hypothesis, which fails only on a hash-collision event).  Engine and
KDF/hash contracts of §4.1/§4.4 are explicit hypotheses; the ephemeral
scalar is universally quantified. -/
theorem encrypt_decrypt_roundtrip (E : CurveEngine)
    (kdf : Nat × Nat → Nat → List Nat) (hashFn : List Nat → List Nat)
    (hkdfLen : ∀ xy l, (kdf xy l).length = l)
    (hhashLen : ∀ x, (hashFn x).length = 32)
    (hserLen : ∀ p, (E.pointToBytes p).length = 64)
    (hserRT : ∀ p, E.bytesToPoint (E.pointToBytes p) = p)
    (hmulG : ∀ a b : ZMod sm2n, E.mulP a (E.gMul b) = E.gMul (a * b))
    (dk : PrivateKey) (Q : PublicKey)
    (hQ : ∀ a : ZMod sm2n, E.smulCoords Q.x Q.y a = E.gMul (a * (dk.d : ZMod sm2n)))
    (msg : List Nat) (mode : EncryptMode) (k : ZMod sm2n) (c : List Nat)
    (henc : cncsEncrypt E kdf hashFn Q msg (some mode) k = some c) :
    cncsDecrypt E kdf dk c (some mode) = .ok msg ∧
    (∀ mode2 : EncryptMode, mode2 ≠ mode →
      (c.drop 64).take (c.length - 96) ≠ c.drop 96 →
      cncsDecrypt E kdf dk c (some mode2) ≠ .ok msg) := by
  have hQk := hQ k
  simp only [cncsEncrypt, gmsmEncrypt, Option.getD] at henc
  rw [hQk] at henc
  set dz : ZMod sm2n := ((dk.d : Nat) : ZMod sm2n) with hdz
  set xy := E.affine (E.gMul (k * dz)) with hxy
  set stream := kdf xy msg.length with hstream
  set c2v := xorBytes msg stream with hc2v
  set c3v := hashFn (pad32 xy.1 ++ msg ++ pad32 xy.2) with hc3v
  set p1 := E.pointToBytes (E.gMul k) with hp1def
  have hLs : stream.length = msg.length := by rw [hstream]; exact hkdfLen xy msg.length
  have hLc2 : c2v.length = msg.length := by
    rw [hc2v, xorBytes_length, hLs, Nat.min_self]
  have hLc3 : c3v.length = 32 := by rw [hc3v]; exact hhashLen _
  have hLp1 : p1.length = 64 := by rw [hp1def]; exact hserLen _
  have hshared : E.mulP ((dk.d : Nat) : ZMod sm2n) (E.bytesToPoint p1) = E.gMul (k * dz) := by
    rw [hp1def, hserRT, hmulG, hdz, mul_comm]
  have hcancel : xorBytes c2v stream = msg := by
    rw [hc2v]; exact xorBytes_cancel msg stream hLs.symm
  by_cases hz : stream.all (fun b => b == 0)
  · rw [if_pos hz] at henc
    exact Option.noConfusion henc
  rw [if_neg hz] at henc
  cases mode with
  | c1c2c3 =>
    rw [if_pos (show EncryptMode.c1c2c3.to_gmsm_mode = gmsmC1C2C3 from rfl)] at henc
    injection henc with hc
    subst hc
    set rest := c2v ++ c3v with hrest
    have hre : (p1 ++ c2v) ++ c3v = p1 ++ rest := by rw [hrest, List.append_assoc]
    have hLrest : rest.length = msg.length + 32 := by
      rw [hrest]; simp [hLc2, hLc3]
    have hrl32 : rest.length - 32 = msg.length := by omega
    have hLc : ((p1 ++ c2v) ++ c3v).length = 96 + msg.length := by
      simp [hLp1, hLc2, hLc3]; omega
    have hextT : rest.take msg.length = c2v := by
      rw [hrest]; exact List.take_left' hLc2
    have hdec := fun modeN =>
      gmsmDecrypt_eval E kdf dk.d p1 rest hLp1 (by omega) modeN
    constructor
    · simp only [cncsDecrypt, Option.getD, EncryptMode.to_gmsm_mode]
      rw [hre, hdec gmsmC1C2C3, if_pos rfl, hrl32, hextT, hshared, ← hxy, hLc2,
        ← hstream, hcancel]
    · intro mode2 hm2 hdiff
      cases mode2 with
      | c1c2c3 => exact absurd rfl hm2
      | c1c3c2 =>
        intro hdecwrong
        simp only [cncsDecrypt, Option.getD, EncryptMode.to_gmsm_mode] at hdecwrong
        rw [hre, hdec gmsmC1C3C2,
          if_neg (show ¬gmsmC1C3C2 = gmsmC1C2C3 by decide)] at hdecwrong
        have hLext : (rest.drop 32).length = msg.length := by
          rw [List.length_drop, hLrest]; omega
        rw [hshared, ← hxy, hLext, ← hstream] at hdecwrong
        injection hdecwrong with hdecwrong
        have hexteq : rest.drop 32 = c2v :=
          xorBytes_inj (rest.drop 32) c2v stream (by rw [hLext, hLs]) (by rw [hLc2, hLs])
            (by rw [hdecwrong, hcancel])
        apply hdiff
        have hdl : ((p1 ++ c2v) ++ c3v).drop 64 = rest := by
          rw [hre]; exact List.drop_left' hLp1
        have hd96 : ((p1 ++ c2v) ++ c3v).drop 96 = rest.drop 32 := by
          have h2 : ((p1 ++ c2v) ++ c3v).drop 96 = (((p1 ++ c2v) ++ c3v).drop 64).drop 32 := by
            rw [List.drop_drop]
          rw [h2, hdl]
        rw [hdl, hd96, hLc]
        have h3 : 96 + msg.length - 96 = msg.length := by omega
        rw [h3, hextT, hexteq]
  | c1c3c2 =>
    rw [if_neg (show ¬EncryptMode.c1c3c2.to_gmsm_mode = gmsmC1C2C3 by decide)] at henc
    injection henc with hc
    subst hc
    set rest := c3v ++ c2v with hrest
    have hre : (p1 ++ c3v) ++ c2v = p1 ++ rest := by rw [hrest, List.append_assoc]
    have hLrest : rest.length = msg.length + 32 := by
      rw [hrest]; simp [hLc2, hLc3]; omega
    have hrl32 : rest.length - 32 = msg.length := by omega
    have hLc : ((p1 ++ c3v) ++ c2v).length = 96 + msg.length := by
      simp [hLp1, hLc2, hLc3]; omega
    have hextT : rest.drop 32 = c2v := by
      rw [hrest]; exact List.drop_left' hLc3
    have hdec := fun modeN =>
      gmsmDecrypt_eval E kdf dk.d p1 rest hLp1 (by omega) modeN
    constructor
    · simp only [cncsDecrypt, Option.getD, EncryptMode.to_gmsm_mode]
      rw [hre, hdec gmsmC1C3C2, if_neg (show ¬gmsmC1C3C2 = gmsmC1C2C3 by decide),
        hextT, hshared, ← hxy, hLc2, ← hstream, hcancel]
    · intro mode2 hm2 hdiff
      cases mode2 with
      | c1c3c2 => exact absurd rfl hm2
      | c1c2c3 =>
        intro hdecwrong
        simp only [cncsDecrypt, Option.getD, EncryptMode.to_gmsm_mode] at hdecwrong
        rw [hre, hdec gmsmC1C2C3, if_pos rfl, hrl32] at hdecwrong
        have hLext : (rest.take msg.length).length = msg.length := by
          rw [List.length_take, hLrest]; omega
        rw [hshared, ← hxy, hLext, ← hstream] at hdecwrong
        injection hdecwrong with hdecwrong
        have hexteq : rest.take msg.length = c2v :=
          xorBytes_inj (rest.take msg.length) c2v stream (by rw [hLext, hLs])
            (by rw [hLc2, hLs]) (by rw [hdecwrong, hcancel])
        apply hdiff
        have hdl : ((p1 ++ c3v) ++ c2v).drop 64 = rest := by
          rw [hre]; exact List.drop_left' hLp1
        have hd96 : ((p1 ++ c3v) ++ c2v).drop 96 = c2v := by
          have h2 : ((p1 ++ c3v) ++ c2v).drop 96 = (((p1 ++ c3v) ++ c2v).drop 64).drop 32 := by
            rw [List.drop_drop]
          rw [h2, hdl, hextT]
        rw [hdl, hd96, hLc]
        have h3 : 96 + msg.length - 96 = msg.length := by omega
        rw [h3, hexteq]

theorem digits_length_le_of_lt (v len : Nat) (h : v < 256 ^ len) :
    (Nat.digits 256 v).length ≤ len := by
  by_contra hc
  push_neg at hc
  have hv0 : v ≠ 0 := by
    rintro rfl
    simp [Nat.digits_zero] at hc
  have h1 := Nat.base_pow_length_digits_le 256 v (by norm_num) hv0
  have h2 : (256 : Nat) ^ (len + 1) ≤ 256 ^ (Nat.digits 256 v).length :=
    Nat.pow_le_pow_right (by norm_num) hc
  have h3 : (256 : Nat) ^ (len + 1) ≤ 256 * v := le_trans h2 h1
  rw [pow_succ] at h3
  have h4 : 256 * (256 : Nat) ^ len ≤ 256 * v := by linarith [h3, mul_comm ((256 : Nat) ^ len) 256]
  exact absurd (Nat.le_of_mul_le_mul_left h4 (by norm_num)) (not_le.mpr h)

theorem rustToBytesBE_length_le (v len : Nat) (h1 : 1 ≤ len) (h : v < 256 ^ len) :
    (rustToBytesBE v).length ≤ len := by
  rw [rustToBytesBE_eq_digits]
  by_cases h0 : v = 0
  · subst h0; simpa using h1
  · simp only [if_neg h0, List.length_reverse]
    exact digits_length_le_of_lt v len h

theorem beVal_replicate_zero_append (k : Nat) (l : List Nat) :
    beVal (List.replicate k 0 ++ l) = beVal l := by
  induction k with
  | zero => rfl
  | succ k ih => simpa [beVal, List.replicate_succ] using ih

/-- In-range values serialize through `to_bytes::<LEN>` to exactly `LEN`
bytes whose big-endian value is the original number. -/
theorem toBytesFixed_some (len v : Nat) (h1 : 1 ≤ len) (h : v < 256 ^ len) :
    ∃ bs, toBytesFixed len v = some bs ∧ bs.length = len ∧ beVal bs = v := by
  have hle := rustToBytesBE_length_le v len h1 h
  refine ⟨List.replicate (len - (rustToBytesBE v).length) 0 ++ rustToBytesBE v, ?_, ?_, ?_⟩
  · unfold toBytesFixed
    rw [if_pos hle]
  · simp only [List.length_append, List.length_replicate]
    omega
  · rw [beVal_replicate_zero_append, beVal_rustToBytesBE]

/-- Out-of-range values make `to_bytes::<LEN>`'s index computation
underflow: the fixed-width copy panics. -/
theorem toBytesFixed_none (len v : Nat) (h : 256 ^ len ≤ v) :
    toBytesFixed len v = none := by
  have hv0 : v ≠ 0 := by
    intro h0
    subst h0
    have hpos : 0 < 256 ^ len := Nat.pos_pow_of_pos len (by norm_num)
    omega
  have hlt : ¬(rustToBytesBE v).length ≤ len := by
    intro hle
    have hl1 : v < 256 ^ (Nat.digits 256 v).length :=
      Nat.lt_base_pow_length_digits (by norm_num)
    have hlen : (rustToBytesBE v).length = (Nat.digits 256 v).length := by
      rw [rustToBytesBE_eq_digits]
      simp [if_neg hv0]
    have hlast : v < 256 ^ len :=
      lt_of_lt_of_le hl1 (Nat.pow_le_pow_right (by norm_num) (hlen ▸ hle))
    omega
  simp [toBytesFixed, if_neg hlt]

/-- Modelled from the spec: the on-curve predicate of §4.1 — the
short-Weierstrass equation `y² ≡ x³ + a·x + b (mod p)` over the SM2
field, which `new_point` must enforce on untrusted coordinates. -/
def sm2OnCurve (x y : Nat) : Bool :=
  decide ((y * y) % sm2p = (x * x * x + sm2a * x + sm2b) % sm2p)

/-- Embeds `enum VerifyError` from `src/cncs-sm2-kit/src/lib.rs`. -/
inductive VerifyError where
  | toLibsmPointFailed (e : String)
deriving DecidableEq

/-- Embeds `sign` from `src/cncs-sm2-kit/src/lib.rs`, with the backend's
fresh nonce surfaced as the explicit argument `kNat` and a single
signing attempt (`none` = the backend would redraw the nonce): derive
`pk = d·G`, then hash-with-`Z` + `sign_raw` when a user id is given,
plain `sign` otherwise, and repack the backend signature. -/
def cncsSign (E : CurveEngine) (hashFn : List Nat → List Nat)
    (private_key : PrivateKey) (msg : List Nat) (user_id : Option (List Nat))
    (kNat : Nat) : Option Signature :=
  let sk := private_key.d
  let pk := E.gMul (sk : ZMod sm2n)
  let res := match user_id with
    | some uid => libsmSignRawAttempt E (libsmSigHash hashFn uid (E.affine pk) msg) sk kNat
    | none => libsmSign E hashFn msg sk pk kNat
  res.map signatureOfLibsm

/-- Core arithmetic correctness of one SM2 signing attempt: any
signature produced by `libsmSignRawAttempt` for the digest `eBytes`
verifies under `libsmVerifyRaw` against the public point `d·G`, for any
engine satisfying the single group law the verification equation uses. -/
theorem signRaw_verifyRaw (E : CurveEngine)
    (law1 : ∀ s t u : ZMod sm2n, E.addP (E.gMul s) (E.mulP t (E.gMul u)) = E.gMul (s + t * u))
    (dNat kNat : Nat) (hunit : IsUnit (1 + (dNat : ZMod sm2n)))
    (eBytes : List Nat) (l : LibsmSignature)
    (h : libsmSignRawAttempt E eBytes dNat kNat = some l) :
    libsmVerifyRaw E eBytes (E.gMul (dNat : ZMod sm2n)) l = true := by
  simp only [libsmSignRawAttempt] at h
  set e : ZMod sm2n := ((beVal eBytes : Nat) : ZMod sm2n) with he
  set d : ZMod sm2n := ((dNat : Nat) : ZMod sm2n) with hd
  set k : ZMod sm2n := ((kNat : Nat) : ZMod sm2n) with hk
  set r : ZMod sm2n := e + ((E.xCoord (E.gMul k) : Nat) : ZMod sm2n) with hr
  set s : ZMod sm2n := zinv (1 + d) * (k - r * d) with hs
  rcases Decidable.em (r = 0 ∨ r + k = 0) with hcond1 | hcond1
  · rw [if_pos hcond1] at h
    exact Option.noConfusion h
  rw [if_neg hcond1] at h
  rcases Decidable.em (s = 0) with hcond2 | hcond2
  · rw [if_pos hcond2] at h
    exact Option.noConfusion h
  rw [if_neg hcond2] at h
  push_neg at hcond1
  obtain ⟨hr0, hrk⟩ := hcond1
  injection h with h
  subst h
  have hzu : zinv (1 + d) * (1 + d) = 1 := zinv_mul_self _ hunit
  have hkey : s + (r + s) * d = k := by
    have hsd : s * (1 + d) = k - r * d := by
      rw [hs]
      calc zinv (1 + d) * (k - r * d) * (1 + d)
          = zinv (1 + d) * (1 + d) * (k - r * d) := by ring
        _ = k - r * d := by rw [hzu, one_mul]
    linear_combination hsd
  have hrc : ((r.val : Nat) : ZMod sm2n) = r := ZMod.natCast_rightInverse r
  have hsc : ((s.val : Nat) : ZMod sm2n) = s := ZMod.natCast_rightInverse s
  have hrange : ¬(r.val = 0 ∨ sm2n ≤ r.val ∨ s.val = 0 ∨ sm2n ≤ s.val) := by
    push_neg
    refine ⟨?_, ?_, ?_, ?_⟩
    · simpa [ZMod.val_eq_zero] using hr0
    · exact ZMod.val_lt r
    · simpa [ZMod.val_eq_zero] using hcond2
    · exact ZMod.val_lt s
  simp only [libsmVerifyRaw, hrc, hsc, if_neg hrange]
  have ht : r + s ≠ 0 := by
    intro ht0
    have : r + k = 0 := by linear_combination (1 + d) * ht0 - hkey
    exact hrk this
  rw [if_neg ht]
  rw [law1 s (r + s) d, hkey]
  simp [hr]

/-- Embeds `verify` from `src/cncs-sm2-kit/src/lib.rs`: convert the
public key to a validated backend point (propagating the failure as
`VerifyError::ToLibsmPointFailed`), convert the signature, then run the
digest path matching the optional user id. -/
def cncsVerify (E : CurveEngine) (hashFn : List Nat → List Nat)
    (public_key : PublicKey) (msg : List Nat) (user_id : Option (List Nat))
    (signature : Signature) : Except VerifyError Bool :=
  match E.newPoint public_key.x public_key.y with
  | .error e => .error (.toLibsmPointFailed e)
  | .ok pk =>
    let lsig := libsmSignatureOf signature
    match user_id with
    | some uid => .ok (libsmVerifyRaw E (libsmSigHash hashFn uid (E.affine pk) msg) pk lsig)
    | none => .ok (libsmVerify E hashFn msg pk lsig)

theorem libsmSignatureOf_signatureOfLibsm (l : LibsmSignature) :
    libsmSignatureOf (signatureOfLibsm l) = l := by
  cases l
  simp [libsmSignatureOf, signatureOfLibsm, beVal_rustToBytesBE]

/-- C1: for every message, every private key `d` with `Q = d·G`, every
fixed optional user id, and every nonce draw that yields a signature,
`verify (Q, m, uid, sign (d, m, uid))` returns `Ok(true)`.  The engine
law, the relation `Q = d·G`, and the invertibility of `1 + d mod n`
(which holds for every in-range SM2 private key, `n` being prime) are
explicit hypotheses; the nonce is universally quantified, so the result
holds on every run regardless of the randomness drawn inside `sign`. -/
theorem sign_then_verify_ok (E : CurveEngine) (hashFn : List Nat → List Nat)
    (law1 : ∀ s t u : ZMod sm2n, E.addP (E.gMul s) (E.mulP t (E.gMul u)) = E.gMul (s + t * u))
    (dk : PrivateKey) (Q : PublicKey)
    (hQ : E.newPoint Q.x Q.y = Except.ok (E.gMul (dk.d : ZMod sm2n)))
    (hunit : IsUnit (1 + (dk.d : ZMod sm2n)))
    (msg : List Nat) (uid : Option (List Nat)) (kNat : Nat) (sig : Signature)
    (hsig : cncsSign E hashFn dk msg uid kNat = some sig) :
    cncsVerify E hashFn Q msg uid sig = .ok true := by
  cases uid with
  | none =>
    simp only [cncsSign, libsmSign] at hsig
    obtain ⟨l, hl, rfl⟩ := Option.map_eq_some'.mp hsig
    simp only [cncsVerify, hQ, libsmVerify, libsmSignatureOf_signatureOfLibsm]
    rw [signRaw_verifyRaw E law1 dk.d kNat hunit (hashFn msg) l hl]
  | some u =>
    simp only [cncsSign] at hsig
    obtain ⟨l, hl, rfl⟩ := Option.map_eq_some'.mp hsig
    simp only [cncsVerify, hQ, libsmSignatureOf_signatureOfLibsm]
    rw [signRaw_verifyRaw E law1 dk.d kNat hunit
      (libsmSigHash hashFn u (E.affine (E.gMul (dk.d : ZMod sm2n))) msg) l hl]

/-- A concrete engine instance for witnesses: the cyclic subgroup
generated by `G` has order `n`, so it is isomorphic to `ZMod n` with
`k·G ↦ k`; this discrete-log model satisfies every group law the
protocol theorems hypothesize, with the x-coordinate read off as the
canonical representative.  `np` is the point-validation strategy. -/
def dlogEngine (np : Nat → Nat → Except String (ZMod sm2n)) : CurveEngine where
  P := ZMod sm2n
  gMul := id
  mulP := fun a p => a * p
  addP := fun p q => p + q
  xCoord := ZMod.val
  affine := fun p => (p.val, p.val)
  newPoint := np
  smulCoords := fun x _ k => k * ((x : Nat) : ZMod sm2n)
  pointToBytes := fun p => (toBytesFixed 64 p.val).getD []
  bytesToPoint := fun l => ((beVal l : Nat) : ZMod sm2n)

theorem dlogEngine_serLen (np : Nat → Nat → Except String (ZMod sm2n)) :
    ∀ p : ZMod sm2n, ((dlogEngine np).pointToBytes p).length = 64 := by
  intro p
  have hv : p.val < 256 ^ 64 := by
    have h1 : p.val < sm2n := ZMod.val_lt p
    have h2 : sm2n < 256 ^ 64 := by decide
    omega
  obtain ⟨bs, hbs, hlen, _⟩ := toBytesFixed_some 64 p.val (by norm_num) hv
  simp [dlogEngine, hbs, hlen]

theorem dlogEngine_serRT (np : Nat → Nat → Except String (ZMod sm2n)) :
    ∀ p : ZMod sm2n,
      (dlogEngine np).bytesToPoint ((dlogEngine np).pointToBytes p) = p := by
  intro p
  have hv : p.val < 256 ^ 64 := by
    have h1 : p.val < sm2n := ZMod.val_lt p
    have h2 : sm2n < 256 ^ 64 := by decide
    omega
  obtain ⟨bs, hbs, _, hval⟩ := toBytesFixed_some 64 p.val (by norm_num) hv
  simp only [dlogEngine, hbs, Option.getD_some, hval]
  exact ZMod.natCast_rightInverse p

theorem dlogEngine_law1 (np : Nat → Nat → Except String (ZMod sm2n)) :
    ∀ s t u : ZMod sm2n, (dlogEngine np).addP ((dlogEngine np).gMul s)
      ((dlogEngine np).mulP t ((dlogEngine np).gMul u)) = (dlogEngine np).gMul (s + t * u) :=
  fun _ _ _ => rfl

/-- Point validation that accepts everything (the trusted-derivation
path), reading the x-coordinate as the discrete log. -/
def acceptingNewPoint : Nat → Nat → Except String (ZMod sm2n) :=
  fun x _ => .ok ((x : Nat) : ZMod sm2n)

/-- Point validation enforcing the §4.1 on-curve check. -/
def checkingNewPoint : Nat → Nat → Except String (ZMod sm2n) :=
  fun x y => if sm2OnCurve x y then .ok ((x : Nat) : ZMod sm2n) else .error "invalid point"

def dlogEngineAccepting : CurveEngine := dlogEngine acceptingNewPoint

def dlogEngineChecking : CurveEngine := dlogEngine checkingNewPoint

/-- The signature produced by the witness run of C1. -/
def c1WitnessSig : Signature :=
  (cncsSign dlogEngineAccepting (fun _ => [5]) ⟨1⟩ [] none 2).getD ⟨0, 0⟩

/-- Witness for C1: a concrete engine, key `d = 1`, public key `(1, 0)`
(whose dlog-model point is `d·G`), message `[]`, nonce `2`: signing
succeeds and verification returns `Ok(true)`. -/
theorem sign_then_verify_ok_witness :
    cncsVerify dlogEngineAccepting (fun _ => [5]) ⟨1, 0⟩ [] none c1WitnessSig = .ok true :=
  sign_then_verify_ok dlogEngineAccepting (fun _ => [5]) (dlogEngine_law1 acceptingNewPoint)
    ⟨1⟩ ⟨1, 0⟩ rfl
    (isUnit_of_mul_eq_one _ (((sm2n + 1) / 2 : Nat) : ZMod sm2n) (by decide))
    [] none 2 c1WitnessSig (by decide)

/-- C3: when the user id is absent, both `sign` and `verify` use the
raw-message digest `Hash(msg)` directly — no `Z_A` identity hash enters
the digest, and the digest does not depend on the public key or on any
identity data: the absent-id digest path equals `hashFn msg`
definitionally, and the glue `sign` with `None` is exactly the raw
attempt on `Hash(msg)`. -/
theorem no_uid_is_raw_digest (E : CurveEngine) (hashFn : List Nat → List Nat)
    (msg : List Nat) :
    (∀ aff, digestBytes hashFn none aff msg = hashFn msg) ∧
    (∀ aff aff2, digestBytes hashFn none aff msg = digestBytes hashFn none aff2 msg) ∧
    (∀ dk kNat, cncsSign E hashFn dk msg none kNat =
      (libsmSignRawAttempt E (hashFn msg) dk.d kNat).map signatureOfLibsm) ∧
    (∀ p sig, libsmVerify E hashFn msg p sig = libsmVerifyRaw E (hashFn msg) p sig) :=
  ⟨fun _ => rfl, fun _ _ => rfl, fun _ _ => rfl, fun _ _ => rfl⟩

/-- C4: when the public key's coordinates fail the curve equation and
the engine therefore rejects the point construction (the §4.1 contract),
`verify` returns the typed error `VerifyError::ToLibsmPointFailed` for
every message, user id and signature — never `Ok(false)` and without
reaching any later step. -/
theorem verify_invalid_point_err (E : CurveEngine) (hashFn : List Nat → List Nat)
    (qx qy : Nat) (emsg : String)
    (hcurve : sm2OnCurve qx qy = false)
    (hrej : sm2OnCurve qx qy = false → E.newPoint qx qy = .error emsg)
    (msg : List Nat) (uid : Option (List Nat)) (sig : Signature) :
    cncsVerify E hashFn ⟨qx, qy⟩ msg uid sig = .error (.toLibsmPointFailed emsg) := by
  simp only [cncsVerify, hrej hcurve]

/-- Witness for C4: `(0, 0)` is not on the SM2 curve (`b ≠ 0`), and the
checking engine makes `verify` surface the typed invalid-point error. -/
theorem verify_invalid_point_err_witness :
    cncsVerify dlogEngineChecking (fun _ => []) ⟨0, 0⟩ [] none ⟨1, 1⟩ =
      .error (.toLibsmPointFailed "invalid point") :=
  verify_invalid_point_err dlogEngineChecking (fun _ => []) 0 0 "invalid point"
    (by decide)
    (fun h => by simp [dlogEngineChecking, dlogEngine, checkingNewPoint, h])
    [] none ⟨1, 1⟩

/-- Toy KDF for witnesses: a stream of `1` bytes of the requested
length (never all-zero for a nonempty message). -/
def witnessKdf : Nat × Nat → Nat → List Nat := fun _ l => List.replicate l 1

/-- Toy hash for witnesses: a fixed 32-byte all-zero digest. -/
def witnessHash : List Nat → List Nat := fun _ => List.replicate 32 0

/-- The ciphertext of the witness run of C2 (key `d = 3`, public key
`(3, 0)` in the dlog model, message `[7]`, mode `C1C3C2`, nonce `2`). -/
def c2WitnessCipher : List Nat :=
  (cncsEncrypt dlogEngineAccepting witnessKdf witnessHash ⟨3, 0⟩ [7]
    (some .c1c3c2) 2).getD []

theorem witnessKdf_length : ∀ xy l, (witnessKdf xy l).length = l := by
  intro xy l
  simp [witnessKdf]

/-- Witness for C2: on the concrete run, same-mode decryption returns
the message and wrong-mode decryption does not. -/
theorem encrypt_decrypt_roundtrip_witness :
    cncsDecrypt dlogEngineAccepting witnessKdf ⟨3⟩ c2WitnessCipher (some .c1c3c2) = .ok [7] ∧
    cncsDecrypt dlogEngineAccepting witnessKdf ⟨3⟩ c2WitnessCipher (some .c1c2c3) ≠ .ok [7] := by
  have h := encrypt_decrypt_roundtrip dlogEngineAccepting witnessKdf witnessHash
    witnessKdf_length (fun _ => rfl)
    (dlogEngine_serLen acceptingNewPoint) (dlogEngine_serRT acceptingNewPoint)
    (fun _ _ => rfl) ⟨3⟩ ⟨3, 0⟩ (fun _ => rfl) [7] .c1c3c2 2 c2WitnessCipher (by decide)
  exact ⟨h.1, h.2 .c1c2c3 (by decide) (by decide)⟩

/-- C9: the default `EncryptMode` is `C1C3C2`, and both `encrypt` and
`decrypt` with mode `None` behave identically to `Some(C1C3C2)` for
every engine, KDF, hash, key, message and nonce (the glue resolves the
option with `unwrap_or_default` before anything else happens). -/
theorem default_mode_is_c1c3c2 :
    EncryptMode.defaultMode = .c1c3c2 ∧
    (∀ E kdf hashFn pk msg k, cncsEncrypt E kdf hashFn pk msg none k =
      cncsEncrypt E kdf hashFn pk msg (some .c1c3c2) k) ∧
    (∀ E kdf dk bytes, cncsDecrypt E kdf dk bytes none =
      cncsDecrypt E kdf dk bytes (some .c1c3c2)) :=
  ⟨rfl, fun _ _ _ _ _ _ => rfl, fun _ _ _ _ => rfl⟩

/-- Counterexample to C8 as stated: on an empty ciphertext, `decrypt`
does not surface a typed error result to the caller — the glue's return
type is a plain byte vector and the backend's component split is outside
its domain, which is a panic, not a typed error. -/
theorem decrypt_short_input_cex :
    cncsDecrypt dlogEngineAccepting witnessKdf ⟨1⟩ [] none = .error .panic := rfl

/-- C8 as amended: for every engine, KDF, key and mode, a ciphertext
shorter than the 96-byte fixed-component minimum makes `decrypt` hit the
out-of-domain split (a panic); no typed error result exists in its
return type. -/
theorem decrypt_short_input_panics (E : CurveEngine) (kdf : Nat × Nat → Nat → List Nat)
    (dk : PrivateKey) (bytes : List Nat) (mode : Option EncryptMode)
    (h : bytes.length < 96) :
    cncsDecrypt E kdf dk bytes mode = .error .panic := by
  simp [cncsDecrypt, gmsmDecrypt, if_pos h]

/-- Witness for the amended C8 at a concrete 3-byte input. -/
theorem decrypt_short_input_panics_witness :
    cncsDecrypt dlogEngineAccepting witnessKdf ⟨1⟩ [0, 0, 0] none = .error .panic :=
  decrypt_short_input_panics dlogEngineAccepting witnessKdf ⟨1⟩ [0, 0, 0] none (by decide)

theorem hexDigitVal_hexUpperDigit : ∀ v < 16, hexDigitVal (hexUpperDigit v) = some v := by
  decide

theorem hexUpperDigit_range : ∀ v < 16, 48 ≤ hexUpperDigit v ∧ hexUpperDigit v ≤ 70 := by
  decide

/-- The digit loop succeeds exactly when every byte is a hex digit or an
underscore separator. -/
theorem parseHexAux_isSome : ∀ (l : List Nat) (acc : Nat),
    (parseHexAux acc l).isSome =
      l.all (fun c => (hexDigitVal c).isSome || decide (c = 95)) := by
  intro l
  induction l with
  | nil => intro acc; rfl
  | cons c cs ih =>
    intro acc
    by_cases hc : c = 95
    · subst hc
      have hstep : parseHexAux acc (95 :: cs) = parseHexAux acc cs := by
        simp [parseHexAux]
      rw [hstep, ih acc, List.all_cons]
      simp [hexDigitVal]
    · simp only [parseHexAux, if_neg hc, List.all_cons]
      cases hd : hexDigitVal c with
      | none => simp [hd, hc]
      | some d =>
        rw [Option.some_bind]
        rw [ih (acc * 16 + d)]
        simp [hd]

theorem toHexStr_cons (b : Nat) (bs : List Nat) :
    toHexStr (b :: bs) =
      hexUpperDigit (b / 16) :: hexUpperDigit (b % 16) :: toHexStr bs := by
  simp [toHexStr]

/-- Parsing the uppercase hex rendering of a byte list recovers the
big-endian value, for in-range bytes. -/
theorem parseHexAux_toHexStr : ∀ (bytes : List Nat), (∀ b ∈ bytes, b < 256) →
    ∀ acc : Nat, parseHexAux acc (toHexStr bytes) =
      some (List.foldl (fun a b => a * 256 + b) acc bytes) := by
  intro bytes
  induction bytes with
  | nil => intro _ acc; rfl
  | cons b bs ih =>
    intro hb acc
    have hblt : b < 256 := hb b (by simp)
    have hhi : b / 16 < 16 := by omega
    have hlo : b % 16 < 16 := Nat.mod_lt _ (by norm_num)
    have h95hi : ¬hexUpperDigit (b / 16) = 95 := by
      have := hexUpperDigit_range _ hhi
      omega
    have h95lo : ¬hexUpperDigit (b % 16) = 95 := by
      have := hexUpperDigit_range _ hlo
      omega
    rw [toHexStr_cons]
    simp only [parseHexAux, if_neg h95hi, if_neg h95lo,
      hexDigitVal_hexUpperDigit _ hhi, Option.some_bind,
      hexDigitVal_hexUpperDigit _ hlo]
    have hsplit : (acc * 16 + b / 16) * 16 + b % 16 = acc * 256 + b := by omega
    rw [hsplit, List.foldl_cons]
    exact ih (fun x hx => hb x (by simp [hx])) (acc * 256 + b)

theorem toHexStr_length (bytes : List Nat) : (toHexStr bytes).length = 2 * bytes.length := by
  induction bytes with
  | nil => rfl
  | cons b bs ih => simp [toHexStr] at ih ⊢; omega

theorem rustToBytesBE_bytes_lt (v : Nat) : ∀ b ∈ rustToBytesBE v, b < 256 := by
  rw [rustToBytesBE_eq_digits]
  by_cases h : v = 0
  · subst h; simp
  · simp only [if_neg h, List.mem_reverse]
    exact fun b hb => Nat.digits_lt_base (by norm_num) hb

theorem toBytesFixed_bytes_lt (len v : Nat) (bs : List Nat)
    (h : toBytesFixed len v = some bs) : ∀ b ∈ bs, b < 256 := by
  unfold toBytesFixed at h
  by_cases hle : (rustToBytesBE v).length ≤ len
  · rw [if_pos hle] at h
    injection h with h
    subst h
    intro b hb
    rcases List.mem_append.mp hb with hb | hb
    · have := List.eq_of_mem_replicate hb
      omega
    · exact rustToBytesBE_bytes_lt v b hb
  · rw [if_neg hle] at h
    exact Option.noConfusion h

theorem stripPlus_of_head_ne (c : Nat) (rest : List Nat) (h : ¬c = 43) :
    stripPlus (c :: rest) = c :: rest := by
  simp [stripPlus, h]

theorem fromStrRadix16_of_toHexStr (bytes : List Nat) (hne : bytes ≠ [])
    (hlt : ∀ b ∈ bytes, b < 256) :
    fromStrRadix16 (toHexStr bytes) = .ok (beVal bytes) := by
  obtain ⟨b, bs, rfl⟩ := List.exists_cons_of_ne_nil hne
  have hblt : b < 256 := hlt b (by simp)
  have hhi : b / 16 < 16 := by omega
  have hrange := hexUpperDigit_range _ hhi
  have hparse := parseHexAux_toHexStr (b :: bs) hlt 0
  rw [toHexStr_cons] at hparse ⊢
  have hstrip :
      stripPlus (hexUpperDigit (b / 16) :: hexUpperDigit (b % 16) :: toHexStr bs) =
        hexUpperDigit (b / 16) :: hexUpperDigit (b % 16) :: toHexStr bs :=
    stripPlus_of_head_ne _ _ (by omega)
  simp only [fromStrRadix16, hstrip]
  rw [if_neg (by simp), if_neg (by simp; omega), hparse]
  rfl

/-- Parsing the uppercase minimal radix-16 rendering recovers the value
(the private-key hex round trip). -/
theorem fromStrRadix16_toStrRadix16Upper (v : Nat) :
    fromStrRadix16 (toStrRadix16Upper v) = .ok v := by
  by_cases h0 : v = 0
  · subst h0; rfl
  · have hds : Nat.digits 16 v ≠ [] := Nat.digits_ne_nil_iff_ne_zero.mpr h0
    have hrev : (Nat.digits 16 v).reverse ≠ [] := by simpa using hds
    obtain ⟨d, drest, hcons⟩ := List.exists_cons_of_ne_nil hrev
    have hdig : ∀ x ∈ (Nat.digits 16 v).reverse, x < 16 := by
      intro x hx
      exact Nat.digits_lt_base (by norm_num) (List.mem_reverse.mp hx)
    have hd16 : d < 16 := hdig d (by rw [hcons]; simp)
    have hdr := hexUpperDigit_range _ hd16
    have hmap : toStrRadix16Upper v = hexUpperDigit d :: drest.map hexUpperDigit := by
      simp only [toStrRadix16Upper, if_neg h0, hcons, List.map_cons]
    have hparse : ∀ (ds : List Nat), (∀ x ∈ ds, x < 16) → ∀ acc,
        parseHexAux acc (ds.map hexUpperDigit) =
          some (List.foldl (fun a x => a * 16 + x) acc ds) := by
      intro ds
      induction ds with
      | nil => intro _ acc; rfl
      | cons x rest2 ih =>
        intro hds acc
        have hx16 := hds x (by simp)
        have h95 : ¬hexUpperDigit x = 95 := by
          have := hexUpperDigit_range _ hx16
          omega
        simp only [List.map_cons, parseHexAux, if_neg h95,
          hexDigitVal_hexUpperDigit x hx16, Option.some_bind]
        exact ih (fun z hz => hds z (by simp [hz])) (acc * 16 + x)
    have hparse2 : parseHexAux 0 (toStrRadix16Upper v) = some v := by
      simp only [toStrRadix16Upper, if_neg h0]
      rw [hparse _ hdig 0, foldl_mulAdd_eq]
      simp [Nat.ofDigits_digits]
    have hstrip : stripPlus (toStrRadix16Upper v) = toStrRadix16Upper v := by
      rw [hmap]
      exact stripPlus_of_head_ne _ _ (by omega)
    have hne : ¬toStrRadix16Upper v = [] := by
      rw [hmap]
      simp
    have hhd : ¬(toStrRadix16Upper v).head? = some 95 := by
      rw [hmap]
      simp
      omega
    simp only [fromStrRadix16, hstrip, if_neg hne, if_neg hhd, hparse2]

theorem toBytesFixed_length (len v : Nat) (bs : List Nat)
    (h : toBytesFixed len v = some bs) : bs.length = len := by
  unfold toBytesFixed at h
  by_cases hle : (rustToBytesBE v).length ≤ len
  · rw [if_pos hle] at h
    injection h with h
    subst h
    simp only [List.length_append, List.length_replicate]
    omega
  · rw [if_neg hle] at h
    exact Option.noConfusion h

theorem toBytesFixed_beVal (len v : Nat) (bs : List Nat)
    (h : toBytesFixed len v = some bs) : beVal bs = v := by
  unfold toBytesFixed at h
  by_cases hle : (rustToBytesBE v).length ≤ len
  · rw [if_pos hle] at h
    injection h with h
    subst h
    rw [beVal_replicate_zero_append, beVal_rustToBytesBE]
  · rw [if_neg hle] at h
    exact Option.noConfusion h

theorem toHexStr_append (l1 l2 : List Nat) :
    toHexStr (l1 ++ l2) = toHexStr l1 ++ toHexStr l2 := by
  simp [toHexStr]

/-- The two 64-character halves of the concatenated hex serialization of
two 32-byte components parse back to the component values. -/
theorem exceptBind_ok {ε α β : Type} (a : α) (f : α → Except ε β) :
    (Except.ok a : Except ε α) >>= f = f a := rfl

/-- In a pure-ASCII byte string every index up to the length is a char
boundary, so the parsers' `&str` slicing cannot panic there. -/
theorem isCharBoundary_ascii (s : List Nat) (h : ∀ b ∈ s, b < 128) (i : Nat)
    (hi : i ≤ s.length) : isCharBoundary s i = true := by
  unfold isCharBoundary
  by_cases h0 : i = 0
  · rw [if_pos h0]
  · rw [if_neg h0]
    cases hg : s.get? i with
    | none =>
      have hlen := List.get?_eq_none.mp hg
      simp
      omega
    | some b =>
      have hb : b < 128 := h b (List.get?_mem hg)
      simp
      omega

theorem strSlice_ascii (s : List Nat) (h : ∀ b ∈ s, b < 128) (i j : Nat)
    (hij : i ≤ j) (hj : j ≤ s.length) :
    strSlice s i j = .ok ((s.take j).drop i) := by
  unfold strSlice
  rw [if_pos ⟨hij, hj, isCharBoundary_ascii s h i (by omega),
    isCharBoundary_ascii s h j hj⟩]

/-- On a pure-ASCII 128-byte input the `PublicKey` parser reduces to the
two-halves parse (no panic is reachable). -/
theorem publicKey_from_concated_ascii128 (s : List Nat) (hlen : s.length = 128)
    (hascii : ∀ b ∈ s, b < 128) :
    PublicKey.from_concated_hex_str s =
      .ok ((PublicKey.from_hex_str (s.take 64) (s.drop 64)).mapError
        PublicKeyFromConcatedHexStrError.parseBigIntError) := by
  have h130 : ¬s.length = 130 := by omega
  have hb0 := strSlice_ascii s hascii 0 64 (by omega) (by omega)
  have hb1 := strSlice_ascii s hascii 64 s.length (by omega) le_rfl
  rw [PublicKey.from_concated_hex_str, if_neg h130, if_pos hlen]
  rw [hb0, exceptBind_ok, hb1, exceptBind_ok, List.drop_zero, List.take_length]
  rfl

/-- On a pure-ASCII 130-byte input starting `"04"` the `PublicKey`
parser reduces to the parse of bytes 2..66 and 66..130. -/
theorem publicKey_from_concated_ascii130 (s : List Nat) (hlen : s.length = 130)
    (h04 : s.take 2 = [48, 52]) (hascii : ∀ b ∈ s, b < 128) :
    PublicKey.from_concated_hex_str s =
      .ok ((PublicKey.from_hex_str ((s.drop 2).take 64) (s.drop 66)).mapError
        PublicKeyFromConcatedHexStrError.parseBigIntError) := by
  have hb0 := strSlice_ascii s hascii 2 66 (by omega) (by omega)
  have hb1 := strSlice_ascii s hascii 66 s.length (by omega) le_rfl
  have hdt : (s.take 66).drop 2 = (s.drop 2).take 64 := by
    simpa using List.drop_take 66 2 s
  rw [PublicKey.from_concated_hex_str, if_pos hlen, if_neg (by simp [h04])]
  rw [hb0, exceptBind_ok, hb1, exceptBind_ok, hdt, List.take_length]
  rfl

/-- On a pure-ASCII 128-byte input the `Signature` parser reduces to the
two-halves parse. -/
theorem signature_from_concated_ascii128 (s : List Nat) (hlen : s.length = 128)
    (hascii : ∀ b ∈ s, b < 128) :
    Signature.from_concated_hex_str s =
      .ok ((Signature.from_hex_str (s.take 64) (s.drop 64)).mapError
        SignatureFromConcatedHexStrError.parseBigIntError) := by
  have hb0 := strSlice_ascii s hascii 0 64 (by omega) (by omega)
  have hb1 := strSlice_ascii s hascii 64 s.length (by omega) le_rfl
  rw [Signature.from_concated_hex_str, if_pos hlen]
  rw [hb0, exceptBind_ok, hb1, exceptBind_ok, List.drop_zero, List.take_length]
  rfl

/-- Uppercase hex output is pure ASCII. -/
theorem toHexStr_ascii (bytes : List Nat) (h : ∀ b ∈ bytes, b < 256) :
    ∀ c ∈ toHexStr bytes, c < 128 := by
  intro c hc
  obtain ⟨b, hb, hcb⟩ := List.mem_flatMap.mp hc
  have hblt : b < 256 := h b hb
  have hhi : b / 16 < 16 := by omega
  have hlo : b % 16 < 16 := Nat.mod_lt _ (by norm_num)
  simp only [List.mem_cons, List.not_mem_nil, or_false] at hcb
  rcases hcb with rfl | rfl
  · have := hexUpperDigit_range _ hhi
    omega
  · have := hexUpperDigit_range _ hlo
    omega

theorem concated_hex_parts (a b : Nat) (ab bb : List Nat)
    (hab : toBytesFixed 32 a = some ab) (hbb : toBytesFixed 32 b = some bb) :
    (toHexStr (ab ++ bb)).length = 128 ∧
    (toHexStr (ab ++ bb)).take 64 = toHexStr ab ∧
    (toHexStr (ab ++ bb)).drop 64 = toHexStr bb ∧
    fromStrRadix16 (toHexStr ab) = .ok a ∧
    fromStrRadix16 (toHexStr bb) = .ok b := by
  have hlab : ab.length = 32 := toBytesFixed_length 32 a ab hab
  have hlbb : bb.length = 32 := toBytesFixed_length 32 b bb hbb
  have hhab : (toHexStr ab).length = 64 := by rw [toHexStr_length, hlab]
  have hhbb : (toHexStr bb).length = 64 := by rw [toHexStr_length, hlbb]
  have habne : ab ≠ [] := by
    intro h
    rw [h] at hlab
    simp at hlab
  have hbbne : bb ≠ [] := by
    intro h
    rw [h] at hlbb
    simp at hlbb
  refine ⟨?_, ?_, ?_, ?_, ?_⟩
  · rw [toHexStr_length, List.length_append, hlab, hlbb]
  · rw [toHexStr_append]
    exact List.take_left' hhab
  · rw [toHexStr_append]
    exact List.drop_left' hhab
  · rw [fromStrRadix16_of_toHexStr ab habne (toBytesFixed_bytes_lt 32 a ab hab),
      toBytesFixed_beVal 32 a ab hab]
  · rw [fromStrRadix16_of_toHexStr bb hbbne (toBytesFixed_bytes_lt 32 b bb hbb),
      toBytesFixed_beVal 32 b bb hbb]

/-- C5: hex serialization round-trips — parsing the radix-16 rendering
of a private key scalar yields the same scalar; parsing the 128-char
concatenated hex of a public key (and its `04`-prefixed 130-char form)
yields the same `x` and `y`; parsing the 128-char concatenated hex of a
signature yields the same `r` and `s`.  Serializer output is pure ASCII,
so the parsers' char-boundary slicing cannot panic on it, and the
in-range hypotheses are exactly what makes the fixed-width serialization
defined (claim C10). -/
theorem hex_serialization_roundtrip :
    (∀ v : Nat, PrivateKey.from_hex_str (toStrRadix16Upper v) = .ok (PrivateKey.new v)) ∧
    (∀ x y : Nat, x < 2 ^ 256 → y < 2 ^ 256 →
      ∃ hs, PublicKey.to_concated_hex_str ⟨x, y⟩ = some hs ∧
        PublicKey.from_concated_hex_str hs = .ok (.ok ⟨x, y⟩) ∧
        PublicKey.from_concated_hex_str ([48, 52] ++ hs) = .ok (.ok ⟨x, y⟩)) ∧
    (∀ r s : Nat, r < 2 ^ 256 → s < 2 ^ 256 →
      ∃ hs, Signature.to_concated_hex_str ⟨r, s⟩ = some hs ∧
        Signature.from_concated_hex_str hs = .ok (.ok ⟨r, s⟩)) := by
  have h256 : (2 : Nat) ^ 256 = 256 ^ 32 := by norm_num
  refine ⟨?_, ?_, ?_⟩
  · intro v
    simp only [PrivateKey.from_hex_str, fromStrRadix16_toStrRadix16Upper, PrivateKey.new]
    rfl
  · intro x y hx hy
    rw [h256] at hx hy
    obtain ⟨ab, hab, _, _⟩ := toBytesFixed_some 32 x (by norm_num) hx
    obtain ⟨bb, hbb, _, _⟩ := toBytesFixed_some 32 y (by norm_num) hy
    obtain ⟨hlen, htake, hdrop, hpa, hpb⟩ := concated_hex_parts x y ab bb hab hbb
    have hascii : ∀ c ∈ toHexStr (ab ++ bb), c < 128 := by
      refine toHexStr_ascii _ ?_
      intro c hc
      rcases List.mem_append.mp hc with hc | hc
      · exact toBytesFixed_bytes_lt 32 x ab hab c hc
      · exact toBytesFixed_bytes_lt 32 y bb hbb c hc
    refine ⟨toHexStr (ab ++ bb), ?_, ?_, ?_⟩
    · simp [PublicKey.to_concated_hex_str, PublicKey.to_concated_bytes, hab, hbb]
    · rw [publicKey_from_concated_ascii128 _ hlen hascii, htake, hdrop]
      simp only [PublicKey.from_hex_str, hpa, hpb]
      rfl
    · have hlen2 : ([48, 52] ++ toHexStr (ab ++ bb)).length = 130 := by
        simp [hlen]
      have hascii2 : ∀ c ∈ [48, 52] ++ toHexStr (ab ++ bb), c < 128 := by
        intro c hc
        rcases List.mem_append.mp hc with hc | hc
        · simp only [List.mem_cons, List.not_mem_nil, or_false] at hc
          rcases hc with rfl | rfl <;> omega
        · exact hascii c hc
      have htk2 : ([48, 52] ++ toHexStr (ab ++ bb)).take 2 = [48, 52] := rfl
      rw [publicKey_from_concated_ascii130 _ hlen2 htk2 hascii2]
      have hd2 : ([48, 52] ++ toHexStr (ab ++ bb)).drop 2 = toHexStr (ab ++ bb) := rfl
      have hd66 : ([48, 52] ++ toHexStr (ab ++ bb)).drop 66 =
          (toHexStr (ab ++ bb)).drop 64 := by
        have h1 : ([48, 52] ++ toHexStr (ab ++ bb)).drop 66 =
            (([48, 52] ++ toHexStr (ab ++ bb)).drop 2).drop 64 := by
          rw [List.drop_drop]
        rw [h1, hd2]
      rw [hd2, hd66, htake, hdrop]
      simp only [PublicKey.from_hex_str, hpa, hpb]
      rfl
  · intro r s hr hs
    rw [h256] at hr hs
    obtain ⟨ab, hab, _, _⟩ := toBytesFixed_some 32 r (by norm_num) hr
    obtain ⟨bb, hbb, _, _⟩ := toBytesFixed_some 32 s (by norm_num) hs
    obtain ⟨hlen, htake, hdrop, hpa, hpb⟩ := concated_hex_parts r s ab bb hab hbb
    have hascii : ∀ c ∈ toHexStr (ab ++ bb), c < 128 := by
      refine toHexStr_ascii _ ?_
      intro c hc
      rcases List.mem_append.mp hc with hc | hc
      · exact toBytesFixed_bytes_lt 32 r ab hab c hc
      · exact toBytesFixed_bytes_lt 32 s bb hbb c hc
    refine ⟨toHexStr (ab ++ bb), ?_, ?_⟩
    · simp [Signature.to_concated_hex_str, Signature.to_concated_bytes, hab, hbb]
    · rw [signature_from_concated_ascii128 _ hlen hascii, htake, hdrop]
      simp only [Signature.from_hex_str, hpa, hpb]
      rfl

/-- Witness for C5 at concrete in-range components. -/
theorem hex_serialization_roundtrip_witness :
    PrivateKey.from_hex_str (toStrRadix16Upper 10) = .ok (PrivateKey.new 10) ∧
    PublicKey.from_concated_hex_str ((PublicKey.to_concated_hex_str ⟨1, 2⟩).getD []) =
      .ok (.ok ⟨1, 2⟩) ∧
    PublicKey.from_concated_hex_str
      ([48, 52] ++ (PublicKey.to_concated_hex_str ⟨1, 2⟩).getD []) = .ok (.ok ⟨1, 2⟩) ∧
    Signature.from_concated_hex_str ((Signature.to_concated_hex_str ⟨3, 4⟩).getD []) =
      .ok (.ok ⟨3, 4⟩) := by
  obtain ⟨h1, h2, h3⟩ := hex_serialization_roundtrip
  obtain ⟨hs, hhs, hp, hp04⟩ := h2 1 2 (by norm_num) (by norm_num)
  obtain ⟨hs2, hhs2, hp2⟩ := h3 3 4 (by norm_num) (by norm_num)
  refine ⟨h1 10, ?_, ?_, ?_⟩
  · rw [hhs]
    simpa using hp
  · rw [hhs]
    simpa using hp04
  · rw [hhs2]
    simpa using hp2

/-- An ASCII byte that is an uppercase hex character (`0-9` or `A-F`). -/
def isUpperHexAscii (c : Nat) : Bool :=
  decide ((48 ≤ c ∧ c ≤ 57) ∨ (65 ≤ c ∧ c ≤ 70))

theorem isUpperHexAscii_hexUpperDigit : ∀ v < 16, isUpperHexAscii (hexUpperDigit v) = true := by
  decide

theorem toHexStr_all_upper : ∀ bytes : List Nat, (∀ b ∈ bytes, b < 256) →
    (toHexStr bytes).all isUpperHexAscii = true := by
  intro bytes
  induction bytes with
  | nil => intro _; rfl
  | cons b bs ih =>
    intro hb
    have hblt : b < 256 := hb b (by simp)
    rw [toHexStr_cons]
    simp only [List.all_cons, Bool.and_eq_true]
    refine ⟨isUpperHexAscii_hexUpperDigit _ (by omega), isUpperHexAscii_hexUpperDigit _
      (Nat.mod_lt _ (by norm_num)), ih (fun x hx => hb x (by simp [hx]))⟩

/-- C10: for components below `2^256`, `to_concated_bytes` is exactly 64
bytes (each component recoverable as the big-endian value of its 32-byte
half) and `to_concated_hex_str` is exactly 128 uppercase hex characters;
a component at or above `2^256` drives the fixed-width padding outside
its domain (the copy panics), for both `PublicKey` and `Signature`. -/
theorem to_concated_bytes_spec :
    (∀ x y : Nat, x < 2 ^ 256 → y < 2 ^ 256 →
      ∃ bs hs, PublicKey.to_concated_bytes ⟨x, y⟩ = some bs ∧ bs.length = 64 ∧
        beVal (bs.take 32) = x ∧ beVal (bs.drop 32) = y ∧
        PublicKey.to_concated_hex_str ⟨x, y⟩ = some hs ∧ hs.length = 128 ∧
        hs.all isUpperHexAscii = true) ∧
    (∀ x y : Nat, 2 ^ 256 ≤ x ∨ 2 ^ 256 ≤ y →
      PublicKey.to_concated_bytes ⟨x, y⟩ = none) ∧
    (∀ r s : Nat, r < 2 ^ 256 → s < 2 ^ 256 →
      ∃ bs hs, Signature.to_concated_bytes ⟨r, s⟩ = some bs ∧ bs.length = 64 ∧
        beVal (bs.take 32) = r ∧ beVal (bs.drop 32) = s ∧
        Signature.to_concated_hex_str ⟨r, s⟩ = some hs ∧ hs.length = 128 ∧
        hs.all isUpperHexAscii = true) ∧
    (∀ r s : Nat, 2 ^ 256 ≤ r ∨ 2 ^ 256 ≤ s →
      Signature.to_concated_bytes ⟨r, s⟩ = none) := by
  have h256 : (2 : Nat) ^ 256 = 256 ^ 32 := by norm_num
  have hparts : ∀ a b : Nat, a < 256 ^ 32 → b < 256 ^ 32 →
      ∃ ab bb, toBytesFixed 32 a = some ab ∧ toBytesFixed 32 b = some bb ∧
        (ab ++ bb).length = 64 ∧ beVal ((ab ++ bb).take 32) = a ∧
        beVal ((ab ++ bb).drop 32) = b ∧ (toHexStr (ab ++ bb)).length = 128 ∧
        (toHexStr (ab ++ bb)).all isUpperHexAscii = true := by
    intro a b ha hb
    obtain ⟨ab, hab, hal, hav⟩ := toBytesFixed_some 32 a (by norm_num) ha
    obtain ⟨bb, hbb, hbl, hbv⟩ := toBytesFixed_some 32 b (by norm_num) hb
    refine ⟨ab, bb, hab, hbb, ?_, ?_, ?_, ?_, ?_⟩
    · simp [hal, hbl]
    · rw [List.take_left' hal, hav]
    · rw [List.drop_left' hal, hbv]
    · rw [toHexStr_length, List.length_append, hal, hbl]
    · refine toHexStr_all_upper _ ?_
      intro c hc
      rcases List.mem_append.mp hc with hc | hc
      · exact toBytesFixed_bytes_lt 32 a ab hab c hc
      · exact toBytesFixed_bytes_lt 32 b bb hbb c hc
  have hnone : ∀ a b : Nat, 2 ^ 256 ≤ a ∨ 2 ^ 256 ≤ b →
      (do
        let xb ← toBytesFixed 32 a
        let yb ← toBytesFixed 32 b
        pure (xb ++ yb) : Option (List Nat)) = none := by
    intro a b hab
    rcases hab with h | h
    · rw [toBytesFixed_none 32 a (by omega)]
      rfl
    · cases hx : toBytesFixed 32 a with
      | none => rfl
      | some xb => simp [hx, toBytesFixed_none 32 b (by omega)]
  refine ⟨?_, ?_, ?_, ?_⟩
  · intro x y hx hy
    rw [h256] at hx hy
    obtain ⟨ab, bb, hab, hbb, h1, h2, h3, h4, h5⟩ := hparts x y hx hy
    exact ⟨ab ++ bb, toHexStr (ab ++ bb),
      by simp [PublicKey.to_concated_bytes, hab, hbb], h1, h2, h3,
      by simp [PublicKey.to_concated_hex_str, PublicKey.to_concated_bytes, hab, hbb],
      h4, h5⟩
  · intro x y hxy
    exact hnone x y hxy
  · intro r s hr hs
    rw [h256] at hr hs
    obtain ⟨ab, bb, hab, hbb, h1, h2, h3, h4, h5⟩ := hparts r s hr hs
    exact ⟨ab ++ bb, toHexStr (ab ++ bb),
      by simp [Signature.to_concated_bytes, hab, hbb], h1, h2, h3,
      by simp [Signature.to_concated_hex_str, Signature.to_concated_bytes, hab, hbb],
      h4, h5⟩
  · intro r s hrs
    exact hnone r s hrs

/-- Witness for C10: a concrete in-range pair serializes to 64 bytes and
128 uppercase hex characters; a concrete out-of-range component panics
the padding (is out of domain). -/
theorem to_concated_bytes_spec_witness :
    ((PublicKey.to_concated_bytes ⟨1, 2⟩).getD []).length = 64 ∧
    ((PublicKey.to_concated_hex_str ⟨1, 2⟩).getD []).length = 128 ∧
    PublicKey.to_concated_bytes ⟨2 ^ 256, 0⟩ = none ∧
    ((Signature.to_concated_bytes ⟨3, 4⟩).getD []).length = 64 ∧
    Signature.to_concated_bytes ⟨0, 2 ^ 256⟩ = none := by
  obtain ⟨h1, h2, h3, h4⟩ := to_concated_bytes_spec
  obtain ⟨bs, hs, hbs, hlbs, _, _, hhs, hlhs, _⟩ := h1 1 2 (by norm_num) (by norm_num)
  obtain ⟨bs2, hs2, hbs2, hlbs2, _, _, _, _, _⟩ := h3 3 4 (by norm_num) (by norm_num)
  refine ⟨?_, ?_, h2 (2 ^ 256) 0 (Or.inl le_rfl), ?_, h4 0 (2 ^ 256) (Or.inr le_rfl)⟩
  · rw [hbs]
    simpa using hlbs
  · rw [hhs]
    simpa using hlhs
  · rw [hbs2]
    simpa using hlbs2

/-- Whether every byte of `s` is an ASCII hex digit (either case) — the
"well-formed" reading of the original claim (no separators, no sign). -/
def allHexDigits (s : List Nat) : Bool :=
  s.all fun c => (hexDigitVal c).isSome

/-- Whether `num_bigint`'s `from_str_radix(_, 16)` accepts `s`: after
stripping one leading `'+'` (unless doubled), the remainder is nonempty,
does not lead with `'_'`, and holds only hex digits and `'_'`
separators. -/
def numAccepts (s : List Nat) : Bool :=
  let s2 := stripPlus s
  !s2.isEmpty &&
    (!decide (s2.head? = some 95) &&
      s2.all (fun c => (hexDigitVal c).isSome || decide (c = 95)))

theorem mapError_ok_iff {α ε ε2 : Type} (f : ε → ε2) (r : Except ε α) (v : α) :
    r.mapError f = .ok v ↔ r = .ok v := by
  cases r <;> simp [Except.mapError]

theorem fromStrRadix16_isOk_iff (s : List Nat) :
    (∃ v, fromStrRadix16 s = .ok v) ↔ numAccepts s = true := by
  have hp := parseHexAux_isSome (stripPlus s) 0
  constructor
  · rintro ⟨v, hv⟩
    simp only [fromStrRadix16] at hv
    by_cases h1 : stripPlus s = []
    · rw [if_pos h1] at hv
      exact Except.noConfusion hv
    rw [if_neg h1] at hv
    by_cases h2 : (stripPlus s).head? = some 95
    · rw [if_pos h2] at hv
      exact Except.noConfusion hv
    rw [if_neg h2] at hv
    cases h3 : parseHexAux 0 (stripPlus s) with
    | none =>
      rw [h3] at hv
      exact Except.noConfusion hv
    | some w =>
      have hall : ((stripPlus s).all
          (fun c => (hexDigitVal c).isSome || decide (c = 95))) = true := by
        rw [← hp, h3]
        rfl
      simp only [numAccepts, hall, Bool.and_eq_true, Bool.not_eq_true']
      refine ⟨by simpa [List.isEmpty_iff] using h1, by simpa using h2, trivial⟩
  · intro hacc
    simp only [numAccepts, Bool.and_eq_true, Bool.not_eq_true'] at hacc
    obtain ⟨hemp, hhd, hall⟩ := hacc
    have h1 : ¬stripPlus s = [] := by
      intro hh
      rw [hh] at hemp
      exact Bool.noConfusion hemp
    have h2 : ¬(stripPlus s).head? = some 95 := by
      intro hh
      rw [hh] at hhd
      simp at hhd
    have hsome : (parseHexAux 0 (stripPlus s)).isSome = true := by
      rw [hp, hall]
    obtain ⟨w, hw⟩ := Option.isSome_iff_exists.mp hsome
    refine ⟨w, ?_⟩
    simp only [fromStrRadix16]
    rw [if_neg h1, if_neg h2, hw]

theorem fromStrRadix16_err (s : List Nat) (hbad : numAccepts s = false) :
    ∃ e, fromStrRadix16 s = .error e := by
  cases h : fromStrRadix16 s with
  | error e => exact ⟨e, rfl⟩
  | ok v =>
    have hacc := (fromStrRadix16_isOk_iff s).mp ⟨v, h⟩
    rw [hbad] at hacc
    exact Bool.noConfusion hacc

theorem publicKey_from_hex_ok_iff (xs ys : List Nat) :
    (∃ pk, PublicKey.from_hex_str xs ys = .ok pk) ↔
      (numAccepts xs = true ∧ numAccepts ys = true) := by
  constructor
  · rintro ⟨pk, hpk⟩
    cases h1 : fromStrRadix16 xs with
    | error e =>
      simp only [PublicKey.from_hex_str, h1] at hpk
      exact Except.noConfusion hpk
    | ok a =>
      cases h2 : fromStrRadix16 ys with
      | error e =>
        simp only [PublicKey.from_hex_str, h1, h2] at hpk
        exact Except.noConfusion hpk
      | ok b =>
        exact ⟨(fromStrRadix16_isOk_iff xs).mp ⟨a, h1⟩,
          (fromStrRadix16_isOk_iff ys).mp ⟨b, h2⟩⟩
  · rintro ⟨hxa, hya⟩
    obtain ⟨a, ha⟩ := (fromStrRadix16_isOk_iff xs).mpr hxa
    obtain ⟨b, hb⟩ := (fromStrRadix16_isOk_iff ys).mpr hya
    refine ⟨⟨a, b⟩, ?_⟩
    simp only [PublicKey.from_hex_str, ha, hb]
    rfl

theorem publicKey_from_hex_err (xs ys : List Nat)
    (hbad : ¬(numAccepts xs = true ∧ numAccepts ys = true)) :
    ∃ e, PublicKey.from_hex_str xs ys = .error e := by
  by_cases h1 : numAccepts xs = true
  · have h2 : numAccepts ys = false := by
      rcases Bool.eq_false_or_eq_true (numAccepts ys) with h | h
      · exact absurd ⟨h1, h⟩ hbad
      · exact h
    obtain ⟨a, ha⟩ := (fromStrRadix16_isOk_iff xs).mpr h1
    obtain ⟨e2, he2⟩ := fromStrRadix16_err ys h2
    refine ⟨e2, ?_⟩
    simp only [PublicKey.from_hex_str, ha, he2]
    rfl
  · have h1f : numAccepts xs = false := by
      rcases Bool.eq_false_or_eq_true (numAccepts xs) with h | h
      · exact absurd h h1
      · exact h
    obtain ⟨e1, he1⟩ := fromStrRadix16_err xs h1f
    refine ⟨e1, ?_⟩
    simp only [PublicKey.from_hex_str, he1]
    rfl

theorem exceptBind_err {ε α β : Type} (e : ε) (f : α → Except ε β) :
    (Except.error e : Except ε α) >>= f = .error e := rfl

theorem isCharBoundary_zero (s : List Nat) : isCharBoundary s 0 = true := rfl

theorem isCharBoundary_length (s : List Nat) : isCharBoundary s s.length = true := by
  unfold isCharBoundary
  by_cases h0 : s.length = 0
  · rw [if_pos h0]
  · rw [if_neg h0]
    have hg : s.get? s.length = none := List.get?_eq_none.mpr le_rfl
    rw [hg]
    simp

/-- Evaluation of the `PublicKey` parser on a 128-byte input whose byte
64 is a char boundary. -/
theorem publicKey_from_concated_128_eval (s : List Nat) (hlen : s.length = 128)
    (hb : isCharBoundary s 64 = true) :
    PublicKey.from_concated_hex_str s =
      .ok ((PublicKey.from_hex_str (s.take 64) (s.drop 64)).mapError
        PublicKeyFromConcatedHexStrError.parseBigIntError) := by
  have h130 : ¬s.length = 130 := by omega
  have hs0 : strSlice s 0 64 = .ok ((s.take 64).drop 0) := by
    unfold strSlice
    rw [if_pos ⟨by omega, by omega, isCharBoundary_zero s, hb⟩]
  have hs1 : strSlice s 64 s.length = .ok ((s.take s.length).drop 64) := by
    unfold strSlice
    rw [if_pos ⟨by omega, le_rfl, hb, isCharBoundary_length s⟩]
  rw [PublicKey.from_concated_hex_str, if_neg h130, if_pos hlen,
    hs0, exceptBind_ok, hs1, exceptBind_ok, List.drop_zero, List.take_length]
  rfl

/-- The `PublicKey` parser panics on a 128-byte input whose byte 64
falls inside a multibyte character. -/
theorem publicKey_from_concated_128_panic (s : List Nat) (hlen : s.length = 128)
    (hb : isCharBoundary s 64 = false) :
    PublicKey.from_concated_hex_str s = .error .panic := by
  have h130 : ¬s.length = 130 := by omega
  have hs0 : strSlice s 0 64 = .error .panic := by
    unfold strSlice
    rw [if_neg ?hc]
    case hc =>
      rintro ⟨_, _, _, h4⟩
      rw [hb] at h4
      exact Bool.noConfusion h4
  rw [PublicKey.from_concated_hex_str, if_neg h130, if_pos hlen, hs0, exceptBind_err]

/-- Evaluation of the `PublicKey` parser on a 130-byte `04`-prefixed
input whose bytes 2 and 66 are char boundaries. -/
theorem publicKey_from_concated_130_eval (s : List Nat) (hlen : s.length = 130)
    (h04 : s.take 2 = [48, 52]) (hb2 : isCharBoundary s 2 = true)
    (hb66 : isCharBoundary s 66 = true) :
    PublicKey.from_concated_hex_str s =
      .ok ((PublicKey.from_hex_str ((s.drop 2).take 64) (s.drop 66)).mapError
        PublicKeyFromConcatedHexStrError.parseBigIntError) := by
  have hs0 : strSlice s 2 66 = .ok ((s.take 66).drop 2) := by
    unfold strSlice
    rw [if_pos ⟨by omega, by omega, hb2, hb66⟩]
  have hs1 : strSlice s 66 s.length = .ok ((s.take s.length).drop 66) := by
    unfold strSlice
    rw [if_pos ⟨by omega, le_rfl, hb66, isCharBoundary_length s⟩]
  have hdt : (s.take 66).drop 2 = (s.drop 2).take 64 := by
    simpa using List.drop_take 66 2 s
  rw [PublicKey.from_concated_hex_str, if_pos hlen, if_neg (by simp [h04]),
    hs0, exceptBind_ok, hs1, exceptBind_ok, hdt, List.take_length]
  rfl

/-- The `PublicKey` parser panics on a 130-byte `04`-prefixed input when
byte 2 or byte 66 falls inside a multibyte character. -/
theorem publicKey_from_concated_130_panic (s : List Nat) (hlen : s.length = 130)
    (h04 : s.take 2 = [48, 52])
    (hb : ¬(isCharBoundary s 2 = true ∧ isCharBoundary s 66 = true)) :
    PublicKey.from_concated_hex_str s = .error .panic := by
  have hs0 : strSlice s 2 66 = .error .panic := by
    unfold strSlice
    rw [if_neg ?hc]
    case hc =>
      rintro ⟨_, _, h3, h4⟩
      exact hb ⟨h3, h4⟩
  rw [PublicKey.from_concated_hex_str, if_pos hlen, if_neg (by simp [h04]),
    hs0, exceptBind_err]

/-- Counterexample to C7 as stated: the 128-byte input
`"0"×63 ++ "_" ++ "0"×64` is not made of hex digits, yet the parser
succeeds on it (`num_bigint` skips `'_'` separators); and the valid
128-byte UTF-8 input `"a" ++ "é"×63 ++ "a"` has byte 64 inside a
multibyte character, so the `&str` slicing panics instead of returning a
parse error. -/
theorem from_concated_hex_cex :
    PublicKey.from_concated_hex_str
      (List.replicate 63 48 ++ 95 :: List.replicate 64 48) = .ok (.ok ⟨0, 0⟩) ∧
    allHexDigits (List.replicate 63 48 ++ 95 :: List.replicate 64 48) = false ∧
    PublicKey.from_concated_hex_str
      (97 :: (List.replicate 63 [195, 169]).flatten ++ [97]) = .error .panic :=
  ⟨by decide, by decide, by decide⟩

/-- C7 as amended: `from_concated_hex_str` measures length in bytes and
parses each half with `num_bigint`'s `from_str_radix`, so it succeeds
exactly on 128-byte inputs (resp. 130-byte inputs starting `"04"`)
whose half boundaries are char boundaries and whose halves `num_bigint`
accepts — hex digits plus `'_'` separators and an optional leading
`'+'`; every other length, and a 130-byte input without the `04`
prefix, is the `Invalid` error (no panic is reachable there); digit
failures in a half surface as the distinct `ParseBigIntError` variant;
and a half boundary inside a multibyte character panics the `&str`
slicing instead of returning an error. -/
theorem from_concated_hex_characterization (s : List Nat) :
    ((∃ pk, PublicKey.from_concated_hex_str s = .ok (.ok pk)) ↔
      (s.length = 128 ∧ isCharBoundary s 64 = true ∧
        numAccepts (s.take 64) = true ∧ numAccepts (s.drop 64) = true) ∨
      (s.length = 130 ∧ s.take 2 = [48, 52] ∧
        isCharBoundary s 2 = true ∧ isCharBoundary s 66 = true ∧
        numAccepts ((s.drop 2).take 64) = true ∧ numAccepts (s.drop 66) = true)) ∧
    (s.length ≠ 128 → s.length ≠ 130 →
      PublicKey.from_concated_hex_str s = .ok (.error .invalid)) ∧
    (s.length = 130 → s.take 2 ≠ [48, 52] →
      PublicKey.from_concated_hex_str s = .ok (.error .invalid)) ∧
    (s.length = 128 → isCharBoundary s 64 = true →
      ¬(numAccepts (s.take 64) = true ∧ numAccepts (s.drop 64) = true) →
      ∃ e, PublicKey.from_concated_hex_str s = .ok (.error (.parseBigIntError e))) ∧
    (s.length = 130 → s.take 2 = [48, 52] → isCharBoundary s 2 = true →
      isCharBoundary s 66 = true →
      ¬(numAccepts ((s.drop 2).take 64) = true ∧ numAccepts (s.drop 66) = true) →
      ∃ e, PublicKey.from_concated_hex_str s = .ok (.error (.parseBigIntError e))) ∧
    (s.length = 128 → isCharBoundary s 64 = false →
      PublicKey.from_concated_hex_str s = .error .panic) ∧
    (s.length = 130 → s.take 2 = [48, 52] →
      ¬(isCharBoundary s 2 = true ∧ isCharBoundary s 66 = true) →
      PublicKey.from_concated_hex_str s = .error .panic) := by
  by_cases h128 : s.length = 128
  · have h130 : ¬s.length = 130 := by omega
    refine ⟨?_, ?_, ?_, ?_, ?_, ?_, ?_⟩
    · cases hb : isCharBoundary s 64 with
      | true =>
        rw [publicKey_from_concated_128_eval s h128 hb]
        constructor
        · rintro ⟨pk, hpk⟩
          injection hpk with hpk
          obtain ⟨ht, hd⟩ := (publicKey_from_hex_ok_iff _ _).mp
            ⟨pk, (mapError_ok_iff _ _ _).mp hpk⟩
          exact Or.inl ⟨h128, rfl, ht, hd⟩
        · rintro (⟨_, _, ht, hd⟩ | ⟨h130x, _, _⟩)
          · obtain ⟨pk, hpk⟩ := (publicKey_from_hex_ok_iff _ _).mpr ⟨ht, hd⟩
            refine ⟨pk, ?_⟩
            rw [hpk]
            rfl
          · omega
      | false =>
        rw [publicKey_from_concated_128_panic s h128 hb]
        constructor
        · rintro ⟨pk, hpk⟩
          exact Except.noConfusion hpk
        · rintro (⟨_, hbt, _, _⟩ | ⟨h130x, _⟩)
          · exact Bool.noConfusion hbt
          · omega
    · intro ha _
      exact absurd h128 ha
    · intro h130x _
      exact absurd h130x (by omega)
    · intro _ hb hnot
      obtain ⟨e, he⟩ := publicKey_from_hex_err _ _ hnot
      refine ⟨e, ?_⟩
      rw [publicKey_from_concated_128_eval s h128 hb, he]
      rfl
    · intro h130x _ _ _ _
      exact absurd h130x (by omega)
    · intro _ hb
      exact publicKey_from_concated_128_panic s h128 hb
    · intro h130x _ _
      exact absurd h130x (by omega)
  · by_cases h130 : s.length = 130
    · by_cases h04 : s.take 2 = [48, 52]
      · refine ⟨?_, ?_, ?_, ?_, ?_, ?_, ?_⟩
        · by_cases hb : isCharBoundary s 2 = true ∧ isCharBoundary s 66 = true
          · obtain ⟨hb2, hb66⟩ := hb
            rw [publicKey_from_concated_130_eval s h130 h04 hb2 hb66]
            constructor
            · rintro ⟨pk, hpk⟩
              injection hpk with hpk
              obtain ⟨ht, hd⟩ := (publicKey_from_hex_ok_iff _ _).mp
                ⟨pk, (mapError_ok_iff _ _ _).mp hpk⟩
              exact Or.inr ⟨h130, h04, hb2, hb66, ht, hd⟩
            · rintro (⟨h128x, _⟩ | ⟨_, _, _, _, ht, hd⟩)
              · omega
              · obtain ⟨pk, hpk⟩ := (publicKey_from_hex_ok_iff _ _).mpr ⟨ht, hd⟩
                refine ⟨pk, ?_⟩
                rw [hpk]
                rfl
          · rw [publicKey_from_concated_130_panic s h130 h04 hb]
            constructor
            · rintro ⟨pk, hpk⟩
              exact Except.noConfusion hpk
            · rintro (⟨h128x, _⟩ | ⟨_, _, hb2, hb66, _, _⟩)
              · omega
              · exact absurd ⟨hb2, hb66⟩ hb
        · intro _ hbx
          exact absurd h130 hbx
        · intro _ htk
          exact absurd h04 htk
        · intro h128x _ _
          exact absurd h128x h128
        · intro _ _ hb2 hb66 hnot
          obtain ⟨e, he⟩ := publicKey_from_hex_err _ _ hnot
          refine ⟨e, ?_⟩
          rw [publicKey_from_concated_130_eval s h130 h04 hb2 hb66, he]
          rfl
        · intro h128x _
          exact absurd h128x h128
        · intro _ _ hb
          exact publicKey_from_concated_130_panic s h130 h04 hb
      · have hunf : PublicKey.from_concated_hex_str s = .ok (.error .invalid) := by
          rw [PublicKey.from_concated_hex_str, if_pos h130, if_pos h04]
        refine ⟨?_, ?_, ?_, ?_, ?_, ?_, ?_⟩
        · rw [hunf]
          constructor
          · rintro ⟨pk, hpk⟩
            injection hpk with hpk
            exact Except.noConfusion hpk
          · rintro (⟨h128x, _⟩ | ⟨_, h04x, _⟩)
            · omega
            · exact absurd h04x h04
        · intro _ hbx
          exact absurd h130 hbx
        · intro _ _
          exact hunf
        · intro h128x _ _
          exact absurd h128x h128
        · intro _ h04x _ _ _
          exact absurd h04x h04
        · intro h128x _
          exact absurd h128x h128
        · intro _ h04x _
          exact absurd h04x h04
    · have hunf : PublicKey.from_concated_hex_str s = .ok (.error .invalid) := by
        rw [PublicKey.from_concated_hex_str, if_neg h130, if_neg h128]
      refine ⟨?_, ?_, ?_, ?_, ?_, ?_, ?_⟩
      · rw [hunf]
        constructor
        · rintro ⟨pk, hpk⟩
          injection hpk with hpk
          exact Except.noConfusion hpk
        · rintro (⟨h128x, _⟩ | ⟨h130x, _⟩)
          · exact absurd h128x h128
          · exact absurd h130x h130
      · intro _ _
        exact hunf
      · intro h130x _
        exact absurd h130x h130
      · intro h128x _ _
        exact absurd h128x h128
      · intro h130x _ _ _ _
        exact absurd h130x h130
      · intro h128x _
        exact absurd h128x h128
      · intro h130x _ _
        exact absurd h130x h130

/-- Witness for C7 as amended: a 3-byte input is the `Invalid` error; a
128-byte all-`'0'` input parses successfully; a 128-byte input with a
`'G'` is the distinct `ParseBigIntError`; a 128-byte input with byte 64
inside a multibyte character panics. -/
theorem from_concated_hex_characterization_witness :
    PublicKey.from_concated_hex_str [48, 48, 48] = .ok (.error .invalid) ∧
    (∃ pk, PublicKey.from_concated_hex_str (List.replicate 128 48) = .ok (.ok pk)) ∧
    (∃ e, PublicKey.from_concated_hex_str (71 :: List.replicate 127 48) =
      .ok (.error (.parseBigIntError e))) ∧
    PublicKey.from_concated_hex_str
      (98 :: (List.replicate 63 [195, 170]).flatten ++ [98]) = .error .panic := by
  obtain ⟨_, hlen, _, _, _, _, _⟩ := from_concated_hex_characterization [48, 48, 48]
  obtain ⟨hiff2, _, _, _, _, _, _⟩ :=
    from_concated_hex_characterization (List.replicate 128 48)
  obtain ⟨_, _, _, hbad, _, _, _⟩ :=
    from_concated_hex_characterization (71 :: List.replicate 127 48)
  obtain ⟨_, _, _, _, _, hpanic, _⟩ :=
    from_concated_hex_characterization (98 :: (List.replicate 63 [195, 170]).flatten ++ [98])
  exact ⟨hlen (by decide) (by decide),
    hiff2.mpr (Or.inl ⟨by decide, by decide, by decide, by decide⟩),
    hbad (by decide) (by decide) (by decide),
    hpanic (by decide) (by decide)⟩

/-- Counterexample to C6 as stated: `PrivateKey::from_hex_str("00")`
succeeds and yields the scalar `0`, which is outside `[1, n−1]` — the
constructors establish no range invariant. -/
theorem privkey_range_cex :
    PrivateKey.from_hex_str [48, 48] = .ok (PrivateKey.new 0) ∧
    ¬(1 ≤ (PrivateKey.new 0).d) := ⟨rfl, by decide⟩

/-- C6 as amended: `new`, `from_bytes` and `from_hex_str` accept any
scalar without validation — including `0` and values at or above the
curve order `n`; no construction path in the data model checks
`d ∈ [1, n−1]` (only the random-generation paths, which draw from the
backends, are specified to produce in-range scalars). -/
theorem privkey_no_range_validation :
    (∀ v, (PrivateKey.new v).d = v) ∧
    (∀ bytes, (PrivateKey.from_bytes bytes).d = beVal bytes) ∧
    PrivateKey.from_hex_str [48, 48] = .ok (PrivateKey.new 0) ∧
    PrivateKey.from_hex_str (toStrRadix16Upper sm2n) = .ok (PrivateKey.new sm2n) := by
  refine ⟨fun _ => rfl, fun _ => rfl, rfl, ?_⟩
  simp only [PrivateKey.from_hex_str, fromStrRadix16_toStrRadix16Upper, PrivateKey.new]
  rfl
